import Mathlib

/-!
Shallow embedding of the versioned item store of the `item-challenge`
repository, and proofs about it.

The embedding follows the TypeScript sources:

* `src/types/item.ts` — the entity model (`ExamItem`, `CreateItemRequest`,
  `UpdateItemRequest`, `ListItemsQuery`).
* `src/storage/memory.ts` (bundled in `src/storage/dynamodb.ts`) — the
  in-memory backend `MemoryStorage`, holding a JS `Map` of current items and a
  JS `Map` of per-id version histories.  JS `Map`s are modelled as association
  lists that keep insertion order, exactly as `Map.set`/`Map.values` do.
* the versioned `DynamoDBStorage` (bundled in `src/server.ts`) — the durable
  backend over DynamoDB.  The DynamoDB table is modelled as a list of records;
  `PutCommand` replaces the record with the same `(id, version)` key or
  appends; a `QueryCommand` on the primary key sorted descending with limit 1
  returns the maximal-version record; the `LatestVersionIndex` GSI query
  returns the records with `latestVersion = "true"` sorted by `lastModified`
  descending (ties broken by the primary key — a modelling choice for the
  service's unspecified tie order), honouring `Limit` and
  `ExclusiveStartKey`/`LastEvaluatedKey`.
* the continuation-token codec (`Buffer.from(JSON.stringify(key)).toString('base64')`
  and its inverse) is modelled byte-for-byte: a JSON printer/parser for the
  `LastEvaluatedKey` shape and RFC 4648 base64 over byte lists.

Every stateful operation takes the nondeterministic inputs of the code
(`randomUUID()` and `Date.now()`) as explicit parameters.  Operations that
only read (`getItem`, `listItems`, `getAuditTrail`) are pure functions of the
state; this is faithful because the corresponding TypeScript performs no
writes.
-/

/-! ## Entity model (`src/types/item.ts`) -/

/-- `ExamItem["content"]`. -/
structure Content where
  question : String
  options : Option (List String)
  correctAnswer : String
  explanation : String
deriving DecidableEq

/-- `ExamItem["metadata"]`. -/
structure Metadata where
  author : String
  created : Nat
  lastModified : Nat
  version : Nat
  status : String
  tags : List String
deriving DecidableEq

/-- The versioned entity (`ExamItem`). -/
structure ExamItem where
  id : String
  subject : String
  itemType : String
  difficulty : Nat
  content : Content
  metadata : Metadata
  securityLevel : String
deriving DecidableEq

/-- `CreateItemRequest["metadata"]` — only author/status/tags. -/
structure CreateMetadata where
  author : String
  status : String
  tags : List String
deriving DecidableEq

/-- `CreateItemRequest`. -/
structure CreateItemRequest where
  subject : String
  itemType : String
  difficulty : Nat
  content : Content
  metadata : CreateMetadata
  securityLevel : String
deriving DecidableEq

/-- `Partial<ExamItem["content"]>`. -/
structure ContentPatch where
  question : Option String
  options : Option (List String)
  correctAnswer : Option String
  explanation : Option String
deriving DecidableEq

/-- `Partial<ExamItem["metadata"]>` — note that the TypeScript type lets a
caller supply `created`, `lastModified` and `version` here. -/
structure MetadataPatch where
  author : Option String
  created : Option Nat
  lastModified : Option Nat
  version : Option Nat
  status : Option String
  tags : Option (List String)
deriving DecidableEq

/-- `UpdateItemRequest`. -/
structure UpdateItemRequest where
  subject : Option String
  itemType : Option String
  difficulty : Option Nat
  content : Option ContentPatch
  metadata : Option MetadataPatch
  securityLevel : Option String
deriving DecidableEq

/-- `ListItemsQuery`. -/
structure ListItemsQuery where
  limit : Option Nat
  offset : Option Nat
  subject : Option String
  status : Option String
  nextToken : Option String
deriving DecidableEq

/-- JS `x || d` on an optional number: `undefined` and `0` are falsy. -/
def jsOrNat (o : Option Nat) (d : Nat) : Nat :=
  match o with
  | none => d
  | some 0 => d
  | some (n+1) => n + 1

/-- JS truthiness of an optional string: `undefined` and `""` are falsy. -/
def jsStr (o : Option String) : Option String :=
  match o with
  | none => none
  | some s => if s = "" then none else some s

/-! ## Insertion-ordered maps (JS `Map`)

`Map.set` keeps the position of an existing key and appends new keys;
`Map.get` finds by key; `Map.values()` iterates in insertion order. -/

/-- `Map.get` on an insertion-ordered association list. -/
def mapGet {α : Type} : List (String × α) → String → Option α
  | [], _ => none
  | (k, v) :: rest, k' => if k' = k then some v else mapGet rest k'

/-- `Map.set`: replace in place, or append a new binding. -/
def mapSet {α : Type} : List (String × α) → String → α → List (String × α)
  | [], k, v => [(k, v)]
  | (k0, v0) :: rest, k, v =>
    if k0 = k then (k0, v) :: rest else (k0, v0) :: mapSet rest k v

/-! ## Shared record construction and the update merge

Both backends build the created item and the updated item with the same
object-spread expressions; the helpers below are that shared shape.
`{...old, ...patch}` keeps a field of `old` exactly when the patch does not
supply it. -/

/-- The item built by `createItem` in both backends:
`{id, ...data, metadata: {...data.metadata, created: now, lastModified: now, version: 1}}`. -/
def mkCreatedItem (newId : String) (now : Nat) (data : CreateItemRequest) : ExamItem :=
  { id := newId
    subject := data.subject
    itemType := data.itemType
    difficulty := data.difficulty
    content := data.content
    metadata :=
      { author := data.metadata.author
        status := data.metadata.status
        tags := data.metadata.tags
        created := now
        lastModified := now
        version := 1 }
    securityLevel := data.securityLevel }

/-- `{...existing.content, ...data.content}`. -/
def mergeContent (old : Content) (p : ContentPatch) : Content :=
  { question := p.question.getD old.question
    options := match p.options with | some o => some o | none => old.options
    correctAnswer := p.correctAnswer.getD old.correctAnswer
    explanation := p.explanation.getD old.explanation }

/-- `{...existing.metadata, ...(data.metadata || {})}` (before the
`lastModified`/`version` overrides). -/
def mergeMetadata (old : Metadata) (p : Option MetadataPatch) : Metadata :=
  match p with
  | none => old
  | some p =>
    { author := p.author.getD old.author
      created := p.created.getD old.created
      lastModified := p.lastModified.getD old.lastModified
      version := p.version.getD old.version
      status := p.status.getD old.status
      tags := p.tags.getD old.tags }

/-- The updated item built by `updateItem` in both backends:
spread of the existing item and the payload, key-by-key content merge, and the
forced `lastModified := Date.now()`, `version := existing.metadata.version + 1`. -/
def applyUpdate (current : ExamItem) (data : UpdateItemRequest) (now : Nat) : ExamItem :=
  { id := current.id
    subject := data.subject.getD current.subject
    itemType := data.itemType.getD current.itemType
    difficulty := data.difficulty.getD current.difficulty
    content :=
      match data.content with
      | some p => mergeContent current.content p
      | none => current.content
    metadata :=
      { mergeMetadata current.metadata data.metadata with
          lastModified := now
          version := current.metadata.version + 1 }
    securityLevel := data.securityLevel.getD current.securityLevel }

/-- The snapshot item built by `createVersion` in both backends: a copy of the
current item with `version + 1` and a fresh `lastModified`. -/
def applySnapshot (current : ExamItem) (now : Nat) : ExamItem :=
  { current with
      metadata :=
        { current.metadata with
            version := current.metadata.version + 1
            lastModified := now } }

/-! ## In-memory backend (`MemoryStorage`) -/

/-- The in-memory backend: `items: Map<string, ExamItem>` and
`versions: Map<string, ExamItem[]>`. -/
structure MemoryStorage where
  items : List (String × ExamItem)
  versions : List (String × List ExamItem)
deriving DecidableEq

/-- The empty store (`new MemoryStorage()`). -/
def MemoryStorage.empty : MemoryStorage := { items := [], versions := [] }

/-- `MemoryStorage.createItem`; `newId` is the `randomUUID()` result and
`now` the `Date.now()` result. -/
def MemoryStorage.createItem (s : MemoryStorage) (newId : String) (now : Nat)
    (data : CreateItemRequest) : ExamItem × MemoryStorage :=
  let item := mkCreatedItem newId now data
  (item,
    { items := mapSet s.items item.id item
      versions := mapSet s.versions item.id [item] })

/-- `MemoryStorage.getItem` — `this.items.get(id) || null`. -/
def MemoryStorage.getItem (s : MemoryStorage) (id : String) : Option ExamItem :=
  mapGet s.items id

/-- `MemoryStorage.updateItem`. -/
def MemoryStorage.updateItem (s : MemoryStorage) (id : String) (now : Nat)
    (data : UpdateItemRequest) : Option ExamItem × MemoryStorage :=
  match mapGet s.items id with
  | none => (none, s)
  | some item =>
    let updated := applyUpdate item data now
    let history := (mapGet s.versions id).getD []
    (some updated,
      { items := mapSet s.items id updated
        versions := mapSet s.versions id (history ++ [updated]) })

/-- `MemoryStorage.listItems`: filter the current values by the truthy
`subject`/`status` predicates, count, then `slice(offset, offset + limit)`
with the `|| 0` / `|| 10` defaults. -/
def MemoryStorage.listItems (s : MemoryStorage) (q : ListItemsQuery) :
    List ExamItem × Nat :=
  let items0 := s.items.map Prod.snd
  let items1 :=
    match jsStr q.subject with
    | some subj => items0.filter (fun it : ExamItem => it.subject = subj)
    | none => items0
  let items2 :=
    match jsStr q.status with
    | some st => items1.filter (fun it : ExamItem => it.metadata.status = st)
    | none => items1
  let total := items2.length
  let offset := jsOrNat q.offset 0
  let limit := jsOrNat q.limit 10
  ((items2.drop offset).take limit, total)

/-- `MemoryStorage.createVersion`. -/
def MemoryStorage.createVersion (s : MemoryStorage) (id : String) (now : Nat) :
    Option ExamItem × MemoryStorage :=
  match mapGet s.items id with
  | none => (none, s)
  | some item =>
    let newVersion := applySnapshot item now
    let history := (mapGet s.versions id).getD []
    (some newVersion,
      { items := mapSet s.items id newVersion
        versions := mapSet s.versions id (history ++ [newVersion]) })

/-- `MemoryStorage.getAuditTrail` — `this.versions.get(id) || []`. -/
def MemoryStorage.getAuditTrail (s : MemoryStorage) (id : String) : List ExamItem :=
  (mapGet s.versions id).getD []

/-! ## Durable backend (the versioned `DynamoDBStorage`)

A stored DynamoDB record is the spread of all logical item fields plus the
three top-level index-support attributes written by the code:
`version` (table sort key), `latestVersion` (GSI partition key, a string),
`lastModified` (GSI sort key). -/

/-- One DynamoDB record. -/
structure DDBRecord where
  item : ExamItem
  version : Nat
  latestVersion : String
  lastModified : Nat
deriving DecidableEq

/-- `PutCommand`: replace the record with the same `(id, version)` primary
key, or insert a new one. -/
def ddbPut (t : List DDBRecord) (r : DDBRecord) : List DDBRecord :=
  if t.any (fun x => x.item.id = r.item.id ∧ x.version = r.version) then
    t.map (fun x => if x.item.id = r.item.id ∧ x.version = r.version then r else x)
  else
    t ++ [r]

/-- `QueryCommand` on the primary key with `ScanIndexForward: false, Limit: 1`:
the record of `id` with the highest `version` sort key (if any). -/
def queryLatestRecord (t : List DDBRecord) (id : String) : Option DDBRecord :=
  (t.filter (fun r => r.item.id = id)).foldl
    (fun acc r =>
      match acc with
      | none => some r
      | some m => if m.version < r.version then some r else some m)
    none

namespace DynamoDBStorage

/-- `DynamoDBStorage.createItem`. -/
def createItem (t : List DDBRecord) (newId : String) (now : Nat)
    (data : CreateItemRequest) : ExamItem × List DDBRecord :=
  let item := mkCreatedItem newId now data
  (item,
    ddbPut t
      { item := item
        version := item.metadata.version
        latestVersion := "true"
        lastModified := item.metadata.lastModified })

/-- `DynamoDBStorage.getItem`: query the latest record and strip the
top-level `version`/`latestVersion`/`lastModified` key attributes. -/
def getItem (t : List DDBRecord) (id : String) : Option ExamItem :=
  (queryLatestRecord t id).map (fun r => r.item)

/-- The two writes issued by `DynamoDBStorage.updateItem`, in issue order:
first the old latest rewritten with `latestVersion: 'false'`, then the new
record with `latestVersion: 'true'`.  `none` when `id` is unknown. -/
def updateWrites (t : List DDBRecord) (id : String) (now : Nat)
    (data : UpdateItemRequest) : Option (DDBRecord × DDBRecord) :=
  match queryLatestRecord t id with
  | none => none
  | some cur =>
    let newVersion := applyUpdate cur.item data now
    some
      ({ cur with latestVersion := "false" },
        { item := newVersion
          version := newVersion.metadata.version
          latestVersion := "true"
          lastModified := newVersion.metadata.lastModified })

/-- `DynamoDBStorage.updateItem`: issue the two writes in order. -/
def updateItem (t : List DDBRecord) (id : String) (now : Nat)
    (data : UpdateItemRequest) : Option ExamItem × List DDBRecord :=
  match updateWrites t id now data with
  | none => (none, t)
  | some (w1, w2) => (some w2.item, ddbPut (ddbPut t w1) w2)

/-- The two writes issued by `DynamoDBStorage.createVersion`, in issue order. -/
def snapshotWrites (t : List DDBRecord) (id : String) (now : Nat) :
    Option (DDBRecord × DDBRecord) :=
  match queryLatestRecord t id with
  | none => none
  | some cur =>
    let newVersion := applySnapshot cur.item now
    some
      ({ cur with latestVersion := "false" },
        { item := newVersion
          version := newVersion.metadata.version
          latestVersion := "true"
          lastModified := newVersion.metadata.lastModified })

/-- `DynamoDBStorage.createVersion`: issue the two writes in order. -/
def createVersion (t : List DDBRecord) (id : String) (now : Nat) :
    Option ExamItem × List DDBRecord :=
  match snapshotWrites t id now with
  | none => (none, t)
  | some (w1, w2) => (some w2.item, ddbPut (ddbPut t w1) w2)

/-- `DynamoDBStorage.getAuditTrail`: the code throws
`Not implemented - define your audit trail strategy` unconditionally. -/
def getAuditTrail (_t : List DDBRecord) (_id : String) : Except String (List ExamItem) :=
  Except.error "Not implemented - define your audit trail strategy"

end DynamoDBStorage

/-! ## Pagination codec

`nextToken = Buffer.from(JSON.stringify(LastEvaluatedKey)).toString('base64')`;
decoding is `JSON.parse(Buffer.from(nextToken, 'base64').toString('utf-8'))`.
A `LastEvaluatedKey` of the GSI query carries the GSI key pair and the table
primary key.  Bytes are modelled as `Nat` values; for the ASCII strings the
codec actually meets, `Buffer.from(s, 'utf-8')` is the list of char codes.
JSON object-key order is not observable through the round trip; the printer
and parser fix one order. -/

/-- The `LastEvaluatedKey` of a `LatestVersionIndex` query. -/
structure LastEvaluatedKey where
  id : String
  version : Nat
  latestVersion : String
  lastModified : Nat
deriving DecidableEq

/-- The key attributes of a record, as DynamoDB reports them. -/
def recKey (r : DDBRecord) : LastEvaluatedKey :=
  { id := r.item.id
    version := r.version
    latestVersion := r.latestVersion
    lastModified := r.lastModified }

/-- Value `n < 64` to its base64-alphabet character code. -/
def b64Char (n : Nat) : Nat :=
  if n < 26 then 65 + n
  else if n < 52 then 71 + n
  else if n < 62 then n - 4
  else if n = 62 then 43
  else 47

/-- Character code back to its base64 value. -/
def b64Val (c : Nat) : Option Nat :=
  if 65 ≤ c ∧ c ≤ 90 then some (c - 65)
  else if 97 ≤ c ∧ c ≤ 122 then some (c - 71)
  else if 48 ≤ c ∧ c ≤ 57 then some (c + 4)
  else if c = 43 then some 62
  else if c = 47 then some 63
  else none

/-- RFC 4648 base64 of a byte list, as character codes (61 is `=` padding). -/
def base64Encode : List Nat → List Nat
  | [] => []
  | [a] => [b64Char (a / 4), b64Char (a % 4 * 16), 61, 61]
  | [a, b] => [b64Char (a / 4), b64Char (a % 4 * 16 + b / 16), b64Char (b % 16 * 4), 61]
  | a :: b :: c :: rest =>
    b64Char (a / 4) :: b64Char (a % 4 * 16 + b / 16) ::
      b64Char (b % 16 * 4 + c / 64) :: b64Char (c % 64) :: base64Encode rest

/-- Base64 decoding back to bytes. -/
def base64Decode : List Nat → Option (List Nat)
  | [] => some []
  | w :: x :: y :: z :: rest =>
    match b64Val w, b64Val x with
    | some a, some b =>
      if y = 61 then some [a * 4 + b / 16]
      else
        match b64Val y with
        | some c =>
          if z = 61 then some [a * 4 + b / 16, b % 16 * 16 + c / 4]
          else
            match b64Val z with
            | some d =>
              (base64Decode rest).map
                (fun tail => (a * 4 + b / 16) :: (b % 16 * 16 + c / 4) :: (c % 4 * 64 + d) :: tail)
            | none => none
        | none => none
    | _, _ => none
  | _ => none

/-- UTF-8 bytes of an ASCII string, as char codes. -/
def strBytes (s : String) : List Nat :=
  s.data.map Char.toNat

/-- String from a list of ASCII char codes. -/
def bytesToStr (l : List Nat) : String :=
  String.mk (l.map Char.ofNat)

/-- Little-endian-free decimal digit list of `n` (most significant first,
empty for 0). -/
def natDigits (n : Nat) : List Nat :=
  if n = 0 then [] else natDigits (n / 10) ++ [n % 10]
decreasing_by exact Nat.div_lt_self (Nat.pos_of_ne_zero (by assumption)) (by omega)

/-- The decimal byte representation `JSON.stringify` uses for a Nat. -/
def natBytes (n : Nat) : List Nat :=
  if n = 0 then [48] else (natDigits n).map (fun d => 48 + d)

/-- `JSON.stringify` of a `LastEvaluatedKey`, as bytes. -/
def jsonOfKey (k : LastEvaluatedKey) : List Nat :=
  strBytes "\x7b\"id\":\"" ++ strBytes k.id ++
    strBytes "\",\"version\":" ++ natBytes k.version ++
    strBytes ",\"latestVersion\":\"" ++ strBytes k.latestVersion ++
    strBytes "\",\"lastModified\":" ++ natBytes k.lastModified ++
    strBytes "\x7d"

/-- Consume an expected literal byte sequence. -/
def dropLit : List Nat → List Nat → Option (List Nat)
  | [], l => some l
  | _ :: _, [] => none
  | c :: cs, d :: ds => if c = d then dropLit cs ds else none

/-- Consume a JSON string body up to (and including) the closing quote. -/
def takeUntilQuote : List Nat → Option (List Nat × List Nat)
  | [] => none
  | c :: rest =>
    if c = 34 then some ([], rest)
    else (takeUntilQuote rest).map (fun p => (c :: p.1, p.2))

/-- Byte is an ASCII decimal digit. -/
def isDigitByte (c : Nat) : Bool :=
  decide (48 ≤ c ∧ c ≤ 57)

/-- Consume a decimal number (at least one digit). -/
def readNat (l : List Nat) : Option (Nat × List Nat) :=
  let digs := l.takeWhile isDigitByte
  if digs = [] then none
  else some (digs.foldl (fun acc c => acc * 10 + (c - 48)) 0, l.drop digs.length)

/-- `JSON.parse` of the exact `LastEvaluatedKey` shape. -/
def parseKeyBytes (l : List Nat) : Option LastEvaluatedKey :=
  match dropLit (strBytes "\x7b\"id\":\"") l with
  | none => none
  | some l1 =>
    match takeUntilQuote l1 with
    | none => none
    | some (idB, l2) =>
      match dropLit (strBytes ",\"version\":") l2 with
      | none => none
      | some l3 =>
        match readNat l3 with
        | none => none
        | some (v, l4) =>
          match dropLit (strBytes ",\"latestVersion\":\"") l4 with
          | none => none
          | some l5 =>
            match takeUntilQuote l5 with
            | none => none
            | some (lvB, l6) =>
              match dropLit (strBytes ",\"lastModified\":") l6 with
              | none => none
              | some l7 =>
                match readNat l7 with
                | none => none
                | some (lm, l8) =>
                  match dropLit (strBytes "\x7d") l8 with
                  | none => none
                  | some l9 =>
                    if l9 = [] then
                      some { id := bytesToStr idB, version := v,
                             latestVersion := bytesToStr lvB, lastModified := lm }
                    else none

/-- Encode a `LastEvaluatedKey` into a continuation token. -/
def encodeToken (k : LastEvaluatedKey) : String :=
  bytesToStr (base64Encode (jsonOfKey k))

/-- Decode a continuation token back into a `LastEvaluatedKey`. -/
def decodeToken (tok : String) : Option LastEvaluatedKey :=
  (base64Decode (strBytes tok)).bind parseKeyBytes

/-! ## The GSI query order and `DynamoDBStorage.listItems` -/

/-- `a` comes strictly before `b` in the `LatestVersionIndex` traversal that
`listItems` requests (`lastModified` descending; ties resolved by the table
primary key, ascending — a fixed modelling of the service's tie order). -/
def keyBefore (a b : LastEvaluatedKey) : Prop :=
  b.lastModified < a.lastModified ∨
    (b.lastModified = a.lastModified ∧
      (a.id < b.id ∨ (a.id = b.id ∧ a.version < b.version)))

instance : DecidableRel keyBefore := fun a b => by
  unfold keyBefore
  exact inferInstance

/-- Non-strict index order on records. -/
def gsiLE (a b : DDBRecord) : Prop :=
  keyBefore (recKey a) (recKey b) ∨
    (a.lastModified = b.lastModified ∧ a.item.id = b.item.id ∧ a.version = b.version)

instance : DecidableRel gsiLE := fun a b => by
  unfold gsiLE
  exact inferInstance

/-- The GSI query result before `Limit`/`ExclusiveStartKey`: the records with
`latestVersion = "true"`, in index order. -/
def gsiSorted (t : List DDBRecord) : List DDBRecord :=
  List.insertionSort gsiLE (t.filter (fun r => r.latestVersion = "true"))

/-- A query page: `Limit`-truncation plus the `LastEvaluatedKey` token, which
DynamoDB reports exactly when the scan stopped at the limit. -/
def pageOf (l : List DDBRecord) (limit : Nat) : List ExamItem × Nat × Option String :=
  let page := l.take limit
  let tok :=
    match page.getLast? with
    | none => none
    | some r => if limit ≤ l.length then some (encodeToken (recKey r)) else none
  (page.map (fun r => r.item), page.length, tok)

/-- `DynamoDBStorage.listItems`: query the GSI for the latest versions,
newest `lastModified` first, resuming from a supplied continuation token.
The `subject`/`status`/`offset` query fields are not consulted by the code.
An unparseable token makes `JSON.parse` throw. -/
def DynamoDBStorage.listItems (t : List DDBRecord) (q : ListItemsQuery) :
    Except String (List ExamItem × Nat × Option String) :=
  let limit := jsOrNat q.limit 10
  match jsStr q.nextToken with
  | none => Except.ok (pageOf (gsiSorted t) limit)
  | some tok =>
    match decodeToken tok with
    | none => Except.error "invalid continuation token"
    | some k =>
      Except.ok (pageOf ((gsiSorted t).filter (fun r => decide (keyBefore k (recKey r)))) limit)

/-! ## Operation traces

`randomUUID()` returning a fresh id is the only assumption a trace carries. -/

/-- One mutating store call with its nondeterministic inputs. -/
inductive Op where
  | create (id : String) (now : Nat) (data : CreateItemRequest)
  | update (id : String) (now : Nat) (data : UpdateItemRequest)
  | snapshot (id : String) (now : Nat)
deriving DecidableEq

/-- Effect of an operation on the in-memory backend. -/
def execMem (s : MemoryStorage) : Op → MemoryStorage
  | .create id now data => (s.createItem id now data).2
  | .update id now data => (s.updateItem id now data).2
  | .snapshot id now => (s.createVersion id now).2

/-- Run a trace on the in-memory backend. -/
def runMem (s : MemoryStorage) (ops : List Op) : MemoryStorage :=
  ops.foldl execMem s

/-- The freshness `randomUUID()` provides for a create on the in-memory
backend. -/
def memFresh (s : MemoryStorage) : Op → Prop
  | .create id _ _ => mapGet s.items id = none
  | _ => True

instance : ∀ s op, Decidable (memFresh s op) := fun s op => by
  cases op <;> simp only [memFresh] <;> exact inferInstance

/-- A trace whose create ids are fresh at their point of execution. -/
def memTraceOK : MemoryStorage → List Op → Prop
  | _, [] => True
  | s, op :: rest => memFresh s op ∧ memTraceOK (execMem s op) rest

instance : ∀ s ops, Decidable (memTraceOK s ops) := fun s ops => by
  induction ops generalizing s with
  | nil => exact .isTrue trivial
  | cons op rest ih => exact @instDecidableAnd _ _ _ (ih (execMem s op))

/-- Effect of an operation on the durable backend's table. -/
def execDdb (t : List DDBRecord) : Op → List DDBRecord
  | .create id now data => (DynamoDBStorage.createItem t id now data).2
  | .update id now data => (DynamoDBStorage.updateItem t id now data).2
  | .snapshot id now => (DynamoDBStorage.createVersion t id now).2

/-- Run a trace on the durable backend. -/
def runDdb (t : List DDBRecord) (ops : List Op) : List DDBRecord :=
  ops.foldl execDdb t

/-- Freshness of `randomUUID()` on the durable backend: no stored record of
that id. -/
def ddbFresh (t : List DDBRecord) : Op → Prop
  | .create id _ _ => ∀ r ∈ t, r.item.id ≠ id
  | _ => True

instance : ∀ t op, Decidable (ddbFresh t op) := fun t op => by
  cases op <;> simp only [ddbFresh] <;> exact inferInstance

/-- A durable-backend trace whose create ids are fresh. -/
def ddbTraceOK : List DDBRecord → List Op → Prop
  | _, [] => True
  | t, op :: rest => ddbFresh t op ∧ ddbTraceOK (execDdb t op) rest

instance : ∀ t ops, Decidable (ddbTraceOK t ops) := fun t ops => by
  induction ops generalizing t with
  | nil => exact .isTrue trivial
  | cons op rest ih => exact @instDecidableAnd _ _ _ (ih (execDdb t op))

/-- An update payload that does not override `metadata.created` (every payload
admitted by the update handler's validation schema satisfies this, since the
schema only passes `author`/`status`/`tags` inside `metadata`). -/
def Op.benign : Op → Prop
  | .update _ _ d =>
    match d.metadata with
    | some p => p.created = none
    | none => True
  | _ => True

instance : ∀ op : Op, Decidable op.benign := fun op => by
  cases op with
  | update id now d =>
    cases h : d.metadata <;> simp only [Op.benign, h] <;> exact inferInstance
  | create id now data => exact .isTrue trivial
  | snapshot id now => exact .isTrue trivial

/-! ## The in-memory backend invariant -/

/-- Structural invariant of every reachable `MemoryStorage` state: both maps
have duplicate-free keys, know exactly the same ids, and for every id the
history is non-empty, carries that id, has version `i + 1` at index `i`, and
ends in the current item. -/
structure MemInv (s : MemoryStorage) : Prop where
  nodupItems : (s.items.map Prod.fst).Nodup
  nodupVersions : (s.versions.map Prod.fst).Nodup
  keys : ∀ id, mapGet s.items id = none ↔ mapGet s.versions id = none
  history : ∀ id h, mapGet s.versions id = some h →
    h ≠ [] ∧ (∀ i (hi : i < h.length), (h.get ⟨i, hi⟩).metadata.version = i + 1) ∧
      (∀ it ∈ h, it.id = id) ∧ mapGet s.items id = h.getLast?

/-! ## Constancy of `metadata.created` under benign traces -/

/-- All versions of an id carry the same `created` timestamp. -/
def MemCreated (s : MemoryStorage) : Prop :=
  ∀ id h, mapGet s.versions id = some h →
    ∀ x ∈ h, ∀ y ∈ h, x.metadata.created = y.metadata.created

/-! ## `queryLatestRecord` lemmas -/

/-- The accumulator step of the descending query's max fold. -/
def maxStep (acc : Option DDBRecord) (r : DDBRecord) : Option DDBRecord :=
  match acc with
  | none => some r
  | some m => if m.version < r.version then some r else some m

/-! ## The durable-backend table invariant -/

/-- Two records with the same `(id, version)` primary key. -/
def sameKey (a b : DDBRecord) : Prop :=
  a.item.id = b.item.id ∧ a.version = b.version

/-- Structural invariant of every reachable table state: the top-level key
attributes mirror the item metadata, primary keys are unique, the
`latestVersion` flag is the string `"true"` exactly on the maximal version of
each id, and versions are dense from 1. -/
structure DdbInv (t : List DDBRecord) : Prop where
  coherent : ∀ r ∈ t, r.version = r.item.metadata.version ∧
    r.lastModified = r.item.metadata.lastModified ∧ 1 ≤ r.version
  distinct : t.Pairwise (fun a b => ¬ sameKey a b)
  latest : ∀ r ∈ t, (r.latestVersion = "true" ∨ r.latestVersion = "false") ∧
    (r.latestVersion = "true" ↔ ∀ r' ∈ t, r'.item.id = r.item.id → r'.version ≤ r.version)
  dense : ∀ r ∈ t, ∀ v, 1 ≤ v → v ≤ r.version →
    ∃ r' ∈ t, r'.item.id = r.item.id ∧ r'.version = v

/-- The record-replacement function a keyed `PutCommand` performs. -/
def putReplace (w x : DDBRecord) : DDBRecord :=
  if x.item.id = w.item.id ∧ x.version = w.version then w else x

/-! ## Constancy of `metadata.created` on the durable backend -/

/-- All stored records of an id carry the same `created` timestamp. -/
def DdbCreated (t : List DDBRecord) : Prop :=
  ∀ r ∈ t, ∀ r' ∈ t, r.item.id = r'.item.id →
    r.item.metadata.created = r'.item.metadata.created

/-- Strings whose UTF-8 bytes survive the token codec unescaped: ASCII with no
quote and no backslash.  Every id `randomUUID()` generates satisfies this. -/
def tokenSafe (s : String) : Prop :=
  ∀ c ∈ s.data, c.toNat < 128 ∧ c.toNat ≠ 34 ∧ c.toNat ≠ 92

instance : ∀ s, Decidable (tokenSafe s) := fun s => by
  unfold tokenSafe
  exact inferInstance

/-! ## Concrete data for the claim instances -/

/-- A concrete creation payload used in concrete instances. -/
def sampleCreate : CreateItemRequest :=
  { subject := "AP Biology"
    itemType := "multiple-choice"
    difficulty := 3
    content :=
      { question := "What is photosynthesis?"
        options := none
        correctAnswer := "A"
        explanation := "Photosynthesis is the process." }
    metadata := { author := "test-author", status := "draft", tags := [] }
    securityLevel := "standard" }

/-- A concrete partial update touching only the subject. -/
def sampleUpdate : UpdateItemRequest :=
  { subject := some "AP Chemistry"
    itemType := none
    difficulty := none
    content := none
    metadata := none
    securityLevel := none }

/-- A storage-interface update payload that overrides `metadata.created` —
admitted by `UpdateItemRequest` (its `metadata` is `Partial<ExamItem["metadata"]>`). -/
def createdOverride : UpdateItemRequest :=
  { subject := none
    itemType := none
    difficulty := none
    content := none
    metadata := some
      { author := none
        created := some 99
        lastModified := none
        version := none
        status := none
        tags := none }
    securityLevel := none }

/-- A concrete two-create trace. -/
def sampleOps : List Op :=
  [Op.create "item-a" 0 sampleCreate, Op.create "item-b" 1 sampleCreate]

/-- An empty-field listing query. -/
def emptyQuery : ListItemsQuery :=
  { limit := none, offset := none, subject := none, status := none, nextToken := none }

/-- The frame conditions of a partial update: untouched domain fields keep
their values, supplied content fields replace key-by-key, the version bumps by
exactly one, and `lastModified` is set to the update's clock reading. -/
def UpdateFrame (it it' : ExamItem) (data : UpdateItemRequest) (now : Nat) : Prop :=
  (data.subject = none → it'.subject = it.subject) ∧
  (data.itemType = none → it'.itemType = it.itemType) ∧
  (data.difficulty = none → it'.difficulty = it.difficulty) ∧
  (data.securityLevel = none → it'.securityLevel = it.securityLevel) ∧
  (data.content = none → it'.content = it.content) ∧
  (∀ p, data.content = some p →
    (p.question = none → it'.content.question = it.content.question) ∧
    (∀ v, p.question = some v → it'.content.question = v) ∧
    (p.options = none → it'.content.options = it.content.options) ∧
    (∀ v, p.options = some v → it'.content.options = some v) ∧
    (p.correctAnswer = none → it'.content.correctAnswer = it.content.correctAnswer) ∧
    (∀ v, p.correctAnswer = some v → it'.content.correctAnswer = v) ∧
    (p.explanation = none → it'.content.explanation = it.content.explanation) ∧
    (∀ v, p.explanation = some v → it'.content.explanation = v)) ∧
  it'.metadata.version = it.metadata.version + 1 ∧
  it'.metadata.lastModified = now

/-- A concrete key for the codec instance. -/
def sampleKey : LastEvaluatedKey :=
  { id := "item-a", version := 1, latestVersion := "true", lastModified := 0 }

/-- A one-item-per-page listing query. -/
def pageQuery : ListItemsQuery :=
  { limit := some 1, offset := none, subject := none, status := none, nextToken := none }

/-! # Theorems -/

/-! ## Association-map lemmas -/

theorem mapGet_mapSet_self {α : Type} (m : List (String × α)) (k : String) (v : α) :
    mapGet (mapSet m k v) k = some v := by
  induction m with
  | nil => simp [mapSet, mapGet]
  | cons p rest ih =>
    obtain ⟨k0, v0⟩ := p
    by_cases h : k0 = k
    · subst h
      simp [mapSet, mapGet]
    · simp [mapSet, mapGet, h, Ne.symm h, ih]

theorem mapGet_mapSet_ne {α : Type} (m : List (String × α)) (k k' : String) (v : α)
    (h : k' ≠ k) : mapGet (mapSet m k v) k' = mapGet m k' := by
  induction m with
  | nil => simp [mapSet, mapGet, h]
  | cons p rest ih =>
    obtain ⟨k0, v0⟩ := p
    by_cases h0 : k0 = k
    · subst h0
      simp [mapSet, mapGet, h]
    · simp [mapSet, mapGet, h0]
      by_cases h1 : k' = k0 <;> simp [h1, ih]

theorem not_mem_keys_of_mapGet_none {α : Type} (m : List (String × α)) (k : String)
    (h : mapGet m k = none) : k ∉ m.map Prod.fst := by
  induction m with
  | nil => simp
  | cons p rest ih =>
    obtain ⟨k0, v0⟩ := p
    by_cases h0 : k = k0
    · subst h0
      simp [mapGet] at h
    · simp only [mapGet, if_neg h0] at h
      simp [h0, ih h]

theorem mapSet_keys {α : Type} (m : List (String × α)) (k : String) (v : α)
    (hk : mapGet m k ≠ none) : (mapSet m k v).map Prod.fst = m.map Prod.fst := by
  induction m with
  | nil => simp [mapGet] at hk
  | cons p rest ih =>
    obtain ⟨k0, v0⟩ := p
    by_cases h0 : k0 = k
    · subst h0
      simp [mapSet]
    · simp only [mapGet, if_neg (Ne.symm h0)] at hk
      simp [mapSet, h0, ih hk]

theorem mapSet_keys_fresh {α : Type} (m : List (String × α)) (k : String) (v : α)
    (hk : mapGet m k = none) : (mapSet m k v).map Prod.fst = m.map Prod.fst ++ [k] := by
  induction m with
  | nil => simp [mapSet]
  | cons p rest ih =>
    obtain ⟨k0, v0⟩ := p
    by_cases h0 : k0 = k
    · subst h0
      simp [mapGet] at hk
    · simp only [mapGet, if_neg (Ne.symm h0)] at hk
      simp [mapSet, h0, ih hk]

theorem mapGet_of_mem {α : Type} (m : List (String × α)) (k : String) (v : α)
    (hnd : (m.map Prod.fst).Nodup) (hm : (k, v) ∈ m) : mapGet m k = some v := by
  induction m with
  | nil => simp at hm
  | cons p rest ih =>
    obtain ⟨k0, v0⟩ := p
    simp only [List.map_cons, List.nodup_cons] at hnd
    rcases List.mem_cons.mp hm with h | h
    · rw [Prod.mk.injEq] at h
      obtain ⟨hk, hv⟩ := h
      subst hk
      subst hv
      simp [mapGet]
    · have hk0 : k ≠ k0 := by
        intro hkk
        subst hkk
        exact hnd.1 (List.mem_map.mpr ⟨(k, v), h, rfl⟩)
      simp [mapGet, hk0, ih hnd.2 h]

theorem mem_of_mapGet {α : Type} (m : List (String × α)) (k : String) (v : α)
    (h : mapGet m k = some v) : (k, v) ∈ m := by
  induction m with
  | nil => simp [mapGet] at h
  | cons p rest ih =>
    obtain ⟨k0, v0⟩ := p
    by_cases h0 : k = k0
    · subst h0
      simp [mapGet] at h
      simp [h]
    · simp only [mapGet, if_neg h0] at h
      exact List.mem_cons_of_mem _ (ih h)

theorem memInv_empty : MemInv MemoryStorage.empty := by
  refine ⟨by simp [MemoryStorage.empty], by simp [MemoryStorage.empty], ?_, ?_⟩
  · intro id
    simp [MemoryStorage.empty, mapGet]
  · intro id h hh
    simp [MemoryStorage.empty, mapGet] at hh

theorem memInv_create (s : MemoryStorage) (newId : String) (now : Nat)
    (data : CreateItemRequest) (hfresh : mapGet s.items newId = none) :
    MemInv s → MemInv (s.createItem newId now data).2 := by
  intro inv
  have hvfresh : mapGet s.versions newId = none := (inv.keys newId).mp hfresh
  have hid : (mkCreatedItem newId now data).id = newId := rfl
  constructor
  · simp only [MemoryStorage.createItem, hid]
    rw [mapSet_keys_fresh _ _ _ hfresh]
    simp [List.nodup_append, inv.nodupItems, not_mem_keys_of_mapGet_none _ _ hfresh]
  · simp only [MemoryStorage.createItem, hid]
    rw [mapSet_keys_fresh _ _ _ hvfresh]
    simp [List.nodup_append, inv.nodupVersions, not_mem_keys_of_mapGet_none _ _ hvfresh]
  · intro id
    by_cases hii : id = newId
    · subst hii
      simp [MemoryStorage.createItem, hid, mapGet_mapSet_self]
    · simp [MemoryStorage.createItem, hid, mapGet_mapSet_ne _ _ _ _ hii, inv.keys id]
  · intro id h hh
    by_cases hii : id = newId
    · subst hii
      simp only [MemoryStorage.createItem, hid, mapGet_mapSet_self, Option.some.injEq] at hh ⊢
      subst hh
      refine ⟨by simp, ?_, by simp [mkCreatedItem], by simp⟩
      intro i hi
      simp only [List.length_singleton] at hi
      have h0 : i = 0 := by omega
      subst h0
      simp [mkCreatedItem]
    · simp only [MemoryStorage.createItem, hid, mapGet_mapSet_ne _ _ _ _ hii] at hh ⊢
      exact inv.history id h hh

theorem memInv_push (s : MemoryStorage) (id : String) (item newIt : ExamItem)
    (hget : mapGet s.items id = some item)
    (hid : newIt.id = item.id)
    (hver : newIt.metadata.version = item.metadata.version + 1)
    (inv : MemInv s) :
    MemInv
      { items := mapSet s.items id newIt
        versions := mapSet s.versions id (((mapGet s.versions id).getD []) ++ [newIt]) } := by
  have hvs : mapGet s.versions id ≠ none := by
    intro hnone
    rw [(inv.keys id).mpr hnone] at hget
    cases hget
  obtain ⟨h, hh⟩ := Option.ne_none_iff_exists'.mp hvs
  obtain ⟨hne, hidx, hids, hlast⟩ := inv.history id h hh
  have hlast' : h.getLast? = some item := by rw [← hlast, hget]
  have hitem_mem : item ∈ h := List.mem_of_mem_getLast? hlast'
  have hitem_id : item.id = id := hids item hitem_mem
  have hitem_ver : item.metadata.version = h.length := by
    have hlen : h.length - 1 < h.length := by
      cases h with
      | nil => exact absurd rfl hne
      | cons a l => simp
    have hget' : h.get ⟨h.length - 1, hlen⟩ = item := by
      have := List.getLast?_eq_getElem? h
      rw [hlast', List.getElem?_eq_getElem hlen] at this
      exact (Option.some.injEq .. ▸ this.symm)
    have := hidx (h.length - 1) hlen
    rw [hget'] at this
    omega
  constructor
  · rw [mapSet_keys _ _ _ (by rw [hget]; intro hc; cases hc)]
    exact inv.nodupItems
  · rw [mapSet_keys _ _ _ hvs]
    exact inv.nodupVersions
  · intro id'
    by_cases hii : id' = id
    · subst hii
      simp [mapGet_mapSet_self]
    · simp only [mapGet_mapSet_ne _ _ _ _ hii]
      exact inv.keys id'
  · intro id' h' hh'
    by_cases hii : id' = id
    · subst hii
      simp only [mapGet_mapSet_self, Option.some.injEq] at hh' ⊢
      rw [hh] at hh'
      simp only [Option.getD_some] at hh'
      subst hh'
      refine ⟨by simp, ?_, ?_, by simp [List.getLast?_concat]⟩
      · intro i hi
        simp only [List.length_append, List.length_singleton] at hi
        by_cases hlt : i < h.length
        · rw [List.get_append i hlt]
          exact hidx i hlt
        · have hieq : i = h.length := by omega
          subst hieq
          have : (h ++ [newIt]).get ⟨h.length, by simp⟩ = newIt := by
            simp [List.get_append_right]
          rw [this, hver, hitem_ver]
      · intro it hit
        rcases List.mem_append.mp hit with hmem | hmem
        · exact hids it hmem
        · simp only [List.mem_singleton] at hmem
          subst hmem
          rw [hid, hitem_id]
    · simp only [mapGet_mapSet_ne _ _ _ _ hii] at hh' ⊢
      exact inv.history id' h' hh'

theorem memInv_exec (s : MemoryStorage) (op : Op) (hf : memFresh s op) (inv : MemInv s) :
    MemInv (execMem s op) := by
  cases op with
  | create id now data =>
    exact memInv_create s id now data hf inv
  | update id now data =>
    cases hget : mapGet s.items id with
    | none => simpa [execMem, MemoryStorage.updateItem, hget] using inv
    | some item =>
      have := memInv_push s id item (applyUpdate item data now) hget rfl rfl inv
      simpa [execMem, MemoryStorage.updateItem, hget] using this
  | snapshot id now =>
    cases hget : mapGet s.items id with
    | none => simpa [execMem, MemoryStorage.createVersion, hget] using inv
    | some item =>
      have := memInv_push s id item (applySnapshot item now) hget rfl rfl inv
      simpa [execMem, MemoryStorage.createVersion, hget] using this

theorem memInv_run (ops : List Op) (s : MemoryStorage) (inv : MemInv s)
    (hok : memTraceOK s ops) : MemInv (runMem s ops) := by
  induction ops generalizing s with
  | nil => exact inv
  | cons op rest ih =>
    obtain ⟨hf, hok'⟩ := hok
    exact ih (execMem s op) (memInv_exec s op hf inv) hok'

/-! ## Field-preservation lemmas for the update merge -/

theorem applyUpdate_created (current : ExamItem) (data : UpdateItemRequest) (now : Nat)
    (hb : match data.metadata with | some p => p.created = none | none => True) :
    (applyUpdate current data now).metadata.created = current.metadata.created := by
  cases hm : data.metadata with
  | none => simp [applyUpdate, mergeMetadata, hm]
  | some p =>
    rw [hm] at hb
    simp [applyUpdate, mergeMetadata, hm, hb]

theorem applySnapshot_created (current : ExamItem) (now : Nat) :
    (applySnapshot current now).metadata.created = current.metadata.created := rfl

theorem memCreated_empty : MemCreated MemoryStorage.empty := by
  intro id h hh
  simp [MemoryStorage.empty, mapGet] at hh

theorem memCreated_push (s : MemoryStorage) (id : String) (item newIt : ExamItem)
    (hget : mapGet s.items id = some item)
    (hcr : newIt.metadata.created = item.metadata.created)
    (inv : MemInv s) (hc : MemCreated s) :
    MemCreated
      { items := mapSet s.items id newIt
        versions := mapSet s.versions id (((mapGet s.versions id).getD []) ++ [newIt]) } := by
  have hvs : mapGet s.versions id ≠ none := by
    intro hnone
    rw [(inv.keys id).mpr hnone] at hget
    cases hget
  obtain ⟨h, hh⟩ := Option.ne_none_iff_exists'.mp hvs
  obtain ⟨hne, hidx, hids, hlast⟩ := inv.history id h hh
  have hlast' : h.getLast? = some item := by rw [← hlast, hget]
  have hitem_mem : item ∈ h := List.mem_of_mem_getLast? hlast'
  intro id' h' hh' x hx y hy
  by_cases hii : id' = id
  · subst hii
    simp only [mapGet_mapSet_self, Option.some.injEq] at hh'
    rw [hh] at hh'
    simp only [Option.getD_some] at hh'
    subst hh'
    have key : ∀ z ∈ h ++ [newIt], z.metadata.created = item.metadata.created := by
      intro z hz
      rcases List.mem_append.mp hz with hmem | hmem
      · exact hc _ h hh z hmem item hitem_mem
      · simp only [List.mem_singleton] at hmem
        subst hmem
        exact hcr
    rw [key x hx, key y hy]
  · simp only [mapGet_mapSet_ne _ _ _ _ hii] at hh'
    exact hc id' h' hh' x hx y hy

theorem memCreated_exec (s : MemoryStorage) (op : Op) (hb : op.benign)
    (inv : MemInv s) (hc : MemCreated s) : MemCreated (execMem s op) := by
  cases op with
  | create id now data =>
    intro id' h' hh' x hx y hy
    by_cases hii : id' = id
    · subst hii
      simp only [execMem, MemoryStorage.createItem, mkCreatedItem, mapGet_mapSet_self,
        Option.some.injEq] at hh'
      subst hh'
      simp only [List.mem_singleton] at hx hy
      rw [hx, hy]
    · simp only [execMem, MemoryStorage.createItem, mkCreatedItem,
        mapGet_mapSet_ne _ _ _ _ hii] at hh'
      exact hc id' h' hh' x hx y hy
  | update id now data =>
    cases hget : mapGet s.items id with
    | none => simpa [execMem, MemoryStorage.updateItem, hget] using hc
    | some item =>
      have := memCreated_push s id item (applyUpdate item data now) hget
        (applyUpdate_created item data now hb) inv hc
      simpa [execMem, MemoryStorage.updateItem, hget] using this
  | snapshot id now =>
    cases hget : mapGet s.items id with
    | none => simpa [execMem, MemoryStorage.createVersion, hget] using hc
    | some item =>
      have := memCreated_push s id item (applySnapshot item now) hget
        (applySnapshot_created item now) inv hc
      simpa [execMem, MemoryStorage.createVersion, hget] using this

theorem memCreated_run (ops : List Op) (s : MemoryStorage) (inv : MemInv s)
    (hc : MemCreated s) (hok : memTraceOK s ops) (hb : ∀ op ∈ ops, op.benign) :
    MemCreated (runMem s ops) := by
  induction ops generalizing s with
  | nil => exact hc
  | cons op rest ih =>
    obtain ⟨hf, hok'⟩ := hok
    exact ih (execMem s op) (memInv_exec s op hf inv)
      (memCreated_exec s op (hb op (by simp)) inv hc) hok'
      (fun o ho => hb o (List.mem_cons_of_mem _ ho))

theorem foldl_maxStep_ne_none (l : List DDBRecord) (m : DDBRecord) :
    l.foldl maxStep (some m) ≠ none := by
  induction l generalizing m with
  | nil => simp
  | cons r rest ih =>
    simp only [List.foldl_cons, maxStep]
    by_cases h : m.version < r.version <;> simp [h, ih]

theorem foldl_maxStep_spec (l : List DDBRecord) (acc : Option DDBRecord) (m' : DDBRecord)
    (h : l.foldl maxStep acc = some m') :
    (acc = some m' ∨ m' ∈ l) ∧ (∀ r ∈ l, r.version ≤ m'.version) ∧
      (∀ m, acc = some m → m.version ≤ m'.version) := by
  induction l generalizing acc with
  | nil =>
    simp only [List.foldl_nil] at h
    exact ⟨Or.inl h, by simp, fun m hm => by rw [hm] at h; cases h; exact le_refl _⟩
  | cons r rest ih =>
    simp only [List.foldl_cons] at h
    obtain ⟨hmem, hmax, hacc⟩ := ih (maxStep acc r) h
    cases hacc0 : acc with
    | none =>
      subst hacc0
      simp only [maxStep] at hmem hacc
      have hrv : r.version ≤ m'.version := hacc r rfl
      refine ⟨?_, ?_, by simp⟩
      · rcases hmem with hm | hm
        · cases hm
          simp
        · simp [hm]
      · intro x hx
        rcases List.mem_cons.mp hx with hh | hh
        · subst hh
          exact hrv
        · exact hmax x hh
    | some m =>
      subst hacc0
      simp only [maxStep] at hmem hacc
      by_cases hlt : m.version < r.version
      · rw [if_pos hlt] at hmem hacc
        have hrv : r.version ≤ m'.version := hacc r rfl
        refine ⟨?_, ?_, ?_⟩
        · rcases hmem with hm | hm
          · cases hm
            simp
          · simp [hm]
        · intro x hx
          rcases List.mem_cons.mp hx with hh | hh
          · subst hh
            exact hrv
          · exact hmax x hh
        · intro m0 hm0
          cases hm0
          omega
      · rw [if_neg hlt] at hmem hacc
        have hmv : m.version ≤ m'.version := hacc m rfl
        refine ⟨?_, ?_, ?_⟩
        · rcases hmem with hm | hm
          · exact Or.inl hm
          · simp [hm]
        · intro x hx
          rcases List.mem_cons.mp hx with hh | hh
          · subst hh
            omega
          · exact hmax x hh
        · intro m0 hm0
          cases hm0
          exact hmv

theorem queryLatestRecord_eq_foldl (t : List DDBRecord) (id : String) :
    queryLatestRecord t id = (t.filter (fun r => r.item.id = id)).foldl maxStep none := by
  rfl

theorem queryLatestRecord_none_iff (t : List DDBRecord) (id : String) :
    queryLatestRecord t id = none ↔ ∀ r ∈ t, r.item.id ≠ id := by
  rw [queryLatestRecord_eq_foldl]
  constructor
  · intro h r hr hid
    have hmem : r ∈ t.filter (fun r => r.item.id = id) := by
      simp [List.mem_filter, hr, hid]
    cases hf : t.filter (fun r => r.item.id = id) with
    | nil => rw [hf] at hmem; cases hmem
    | cons a rest =>
      rw [hf] at h
      simp only [List.foldl_cons, maxStep] at h
      exact foldl_maxStep_ne_none rest a h
  · intro h
    have hf : t.filter (fun r => r.item.id = id) = [] := by
      rw [List.filter_eq_nil]
      intro r hr
      simp [h r hr]
    rw [hf]
    rfl

theorem queryLatestRecord_spec (t : List DDBRecord) (id : String) (cur : DDBRecord)
    (h : queryLatestRecord t id = some cur) :
    cur ∈ t ∧ cur.item.id = id ∧ ∀ r ∈ t, r.item.id = id → r.version ≤ cur.version := by
  rw [queryLatestRecord_eq_foldl] at h
  obtain ⟨hmem, hmax, _⟩ := foldl_maxStep_spec _ none cur h
  rcases hmem with hm | hm
  · cases hm
  · have := List.mem_filter.mp hm
    refine ⟨this.1, by simpa using this.2, ?_⟩
    intro r hr hid
    exact hmax r (List.mem_filter.mpr ⟨hr, by simp [hid]⟩)

theorem queryLatestRecord_isSome (t : List DDBRecord) (id : String) (r : DDBRecord)
    (hr : r ∈ t) (hid : r.item.id = id) : ∃ cur, queryLatestRecord t id = some cur := by
  cases hq : queryLatestRecord t id with
  | none => exact absurd hid ((queryLatestRecord_none_iff t id).mp hq r hr)
  | some cur => exact ⟨cur, rfl⟩

theorem ddbInv_nil : DdbInv [] := by
  refine ⟨?_, ?_, ?_, ?_⟩ <;> simp

theorem sameKey_symm {a b : DDBRecord} (h : sameKey a b) : sameKey b a :=
  ⟨h.1.symm, h.2.symm⟩

theorem ddbInv_key_unique {t : List DDBRecord} (inv : DdbInv t) {x y : DDBRecord}
    (hx : x ∈ t) (hy : y ∈ t) (hid : x.item.id = y.item.id) (hv : x.version = y.version) :
    x = y := by
  by_cases hxy : x = y
  · exact hxy
  · have := (inv.distinct.forall (fun a b hab => fun hba => hab (sameKey_symm hba))) hx hy hxy
    exact absurd ⟨hid, hv⟩ this

theorem ddbPut_fresh (t : List DDBRecord) (w : DDBRecord)
    (h : ∀ x ∈ t, ¬ sameKey x w) : ddbPut t w = t ++ [w] := by
  simp only [ddbPut]
  rw [if_neg]
  simp only [List.any_eq_true, not_exists]
  intro x
  rintro ⟨hx, hkey⟩
  simp only [decide_eq_true_eq] at hkey
  exact h x hx hkey

/-- Appending a fresh version-1 record preserves the invariant. -/
theorem ddbInv_append_v1 (t : List DDBRecord) (w : DDBRecord)
    (hfresh : ∀ r ∈ t, r.item.id ≠ w.item.id)
    (hv1 : w.version = 1)
    (hc1 : w.version = w.item.metadata.version)
    (hc2 : w.lastModified = w.item.metadata.lastModified)
    (hl : w.latestVersion = "true")
    (inv : DdbInv t) : DdbInv (t ++ [w]) := by
  have hmemF : ∀ y, y ∈ t ++ [w] ↔ y ∈ t ∨ y = w := by
    intro y
    simp [List.mem_append]
  constructor
  · intro r hr
    rcases (hmemF r).mp hr with hmem | hmem
    · exact inv.coherent r hmem
    · subst hmem
      exact ⟨hc1, hc2, by omega⟩
  · rw [List.pairwise_append]
    refine ⟨inv.distinct, by simp, ?_⟩
    intro x hx y hy
    simp only [List.mem_singleton] at hy
    subst hy
    intro hsk
    exact hfresh x hx hsk.1
  · intro r hr
    rcases (hmemF r).mp hr with hmem | hmem
    · obtain ⟨hflag, hiff⟩ := inv.latest r hmem
      refine ⟨hflag, ?_⟩
      rw [hiff]
      constructor
      · intro hall r' hr' hid'
        rcases (hmemF r').mp hr' with hmem' | hmem'
        · exact hall r' hmem' hid'
        · subst hmem'
          exact absurd hid'.symm (hfresh r hmem)
      · intro hall r' hr' hid'
        exact hall r' ((hmemF r').mpr (Or.inl hr')) hid'
    · subst hmem
      refine ⟨Or.inl hl, ?_⟩
      constructor
      · intro _ r' hr' hid'
        rcases (hmemF r').mp hr' with hmem' | hmem'
        · exact absurd hid' (hfresh r' hmem')
        · subst hmem'
          exact le_refl _
      · intro _
        exact hl
  · intro r hr v hv1' hv2
    rcases (hmemF r).mp hr with hmem | hmem
    · obtain ⟨r', hr', hrid, hrv⟩ := inv.dense r hmem v hv1' hv2
      exact ⟨r', (hmemF r').mpr (Or.inl hr'), hrid, hrv⟩
    · subst hmem
      have hveq : v = 1 := by omega
      subst hveq
      exact ⟨r, (hmemF r).mpr (Or.inr rfl), rfl, hv1⟩

theorem ddbInv_create (t : List DDBRecord) (newId : String) (now : Nat)
    (data : CreateItemRequest) (hfresh : ∀ r ∈ t, r.item.id ≠ newId) (inv : DdbInv t) :
    DdbInv (DynamoDBStorage.createItem t newId now data).2 := by
  simp only [DynamoDBStorage.createItem]
  rw [ddbPut_fresh]
  · exact ddbInv_append_v1 t _ (fun r hr => hfresh r hr) rfl rfl rfl rfl inv
  · intro x hx hsk
    exact hfresh x hx hsk.1

theorem putReplace_item_id (w x : DDBRecord) : (putReplace w x).item.id = x.item.id := by
  unfold putReplace
  split
  · rename_i h
    exact h.1.symm
  · rfl

theorem putReplace_version (w x : DDBRecord) : (putReplace w x).version = x.version := by
  unfold putReplace
  split
  · rename_i h
    exact h.2.symm
  · rfl

theorem putReplace_of_same (w x : DDBRecord) (h : sameKey x w) : putReplace w x = w := by
  unfold putReplace
  rw [if_pos ⟨h.1, h.2⟩]

theorem putReplace_of_ne (w x : DDBRecord) (h : ¬ sameKey x w) : putReplace w x = x := by
  unfold putReplace
  split
  · rename_i hc
    exact absurd ⟨hc.1, hc.2⟩ h
  · rfl

theorem ddbPut_existing (t : List DDBRecord) (w x : DDBRecord) (hx : x ∈ t)
    (hsk : sameKey x w) : ddbPut t w = t.map (putReplace w) := by
  simp only [ddbPut]
  rw [if_pos]
  · rfl
  · exact List.any_eq_true.mpr ⟨x, hx, by simpa using hsk⟩

/-- The state after the demote-then-promote write pair of
`updateItem`/`createVersion` satisfies the invariant again. -/
theorem ddbInv_twoWrite (t : List DDBRecord) (cur w1 w2 : DDBRecord)
    (hcur : cur ∈ t)
    (hmax : ∀ r ∈ t, r.item.id = cur.item.id → r.version ≤ cur.version)
    (hw1 : w1.item = cur.item) (hw1v : w1.version = cur.version)
    (hw1lm : w1.lastModified = cur.lastModified) (hw1l : w1.latestVersion = "false")
    (hw2id : w2.item.id = cur.item.id) (hw2v : w2.version = cur.version + 1)
    (hw2c1 : w2.version = w2.item.metadata.version)
    (hw2c2 : w2.lastModified = w2.item.metadata.lastModified)
    (hw2l : w2.latestVersion = "true")
    (inv : DdbInv t) :
    DdbInv (ddbPut (ddbPut t w1) w2) := by
  have hskcur : sameKey cur w1 := ⟨by rw [hw1], by rw [hw1v]⟩
  have hput1 : ddbPut t w1 = t.map (putReplace w1) := ddbPut_existing t w1 cur hcur hskcur
  have hmid_no_w2key : ∀ y ∈ t.map (putReplace w1), ¬ sameKey y w2 := by
    intro y hy hsk
    obtain ⟨x, hx, hxy⟩ := List.mem_map.mp hy
    have hvy : y.version = x.version := by rw [← hxy, putReplace_version]
    have hidy : y.item.id = x.item.id := by rw [← hxy, putReplace_item_id]
    have hxid : x.item.id = cur.item.id := by rw [← hidy, hsk.1, hw2id]
    have hle := hmax x hx hxid
    have hskv : y.version = w2.version := hsk.2
    omega
  have hput2 : ddbPut (t.map (putReplace w1)) w2 = t.map (putReplace w1) ++ [w2] :=
    ddbPut_fresh _ w2 hmid_no_w2key
  rw [hput1, hput2]
  have hcurc := inv.coherent cur hcur
  have huniq : ∀ x ∈ t, sameKey x w1 → x = cur := by
    intro x hx hsk
    exact ddbInv_key_unique inv hx hcur (by rw [hsk.1, hw1]) (by rw [hsk.2, hw1v])
  have hmemF : ∀ y, y ∈ t.map (putReplace w1) ++ [w2] ↔
      (∃ x ∈ t, y = putReplace w1 x) ∨ y = w2 := by
    intro y
    rw [List.mem_append, List.mem_singleton, List.mem_map]
    constructor
    · rintro (⟨x, hx, hxy⟩ | h)
      · exact Or.inl ⟨x, hx, hxy.symm⟩
      · exact Or.inr h
    · rintro (⟨x, hx, hxy⟩ | h)
      · exact Or.inl ⟨x, hx, hxy.symm⟩
      · exact Or.inr h
  constructor
  · -- coherence
    intro r hr
    rcases (hmemF r).mp hr with ⟨x, hx, hxy⟩ | hmem
    · by_cases hsk : sameKey x w1
      · have hxc := huniq x hx hsk
        rw [hxc, putReplace_of_same w1 cur hskcur] at hxy
        rw [hxy]
        refine ⟨?_, ?_, ?_⟩
        · rw [hw1v, hw1]
          exact hcurc.1
        · rw [hw1lm, hw1]
          exact hcurc.2.1
        · rw [hw1v]
          exact hcurc.2.2
      · rw [putReplace_of_ne w1 x hsk] at hxy
        rw [hxy]
        exact inv.coherent x hx
    · rw [hmem]
      refine ⟨hw2c1, hw2c2, by omega⟩
  · -- key uniqueness
    rw [List.pairwise_append]
    refine ⟨?_, by simp, ?_⟩
    · rw [List.pairwise_map]
      refine inv.distinct.imp ?_
      intro a b hab hsk
      apply hab
      refine ⟨?_, ?_⟩
      · rw [← putReplace_item_id w1 a, ← putReplace_item_id w1 b]
        exact hsk.1
      · rw [← putReplace_version w1 a, ← putReplace_version w1 b]
        exact hsk.2
    · intro a ha b hb
      simp only [List.mem_singleton] at hb
      subst hb
      exact hmid_no_w2key a ha
  · -- the latestVersion flag
    intro r hr
    rcases (hmemF r).mp hr with ⟨x, hx, hxy⟩ | hmem
    · by_cases hsk : sameKey x w1
      · -- the demoted old latest
        have hxc := huniq x hx hsk
        rw [hxc, putReplace_of_same w1 cur hskcur] at hxy
        rw [hxy]
        refine ⟨Or.inr hw1l, ?_⟩
        constructor
        · intro habs
          rw [hw1l] at habs
          exact absurd habs (by decide)
        · intro hall
          exfalso
          have hw2mem : w2 ∈ t.map (putReplace w1) ++ [w2] := (hmemF w2).mpr (Or.inr rfl)
          have hle := hall w2 hw2mem (by rw [hw2id, hw1])
          omega
      · -- an untouched record
        rw [putReplace_of_ne w1 x hsk] at hxy
        rw [hxy]
        obtain ⟨hflag, hiff⟩ := inv.latest x hx
        refine ⟨hflag, ?_⟩
        by_cases hxid : x.item.id = cur.item.id
        · -- same id as the updated one: x is a strictly older version
          have hxlt : x.version < cur.version := by
            have hle := hmax x hx hxid
            rcases Nat.lt_or_ge x.version cur.version with hlt | hge
            · exact hlt
            · exfalso
              apply hsk
              refine ⟨by rw [hxid, hw1], ?_⟩
              rw [hw1v]
              omega
          constructor
          · intro htrue
            exfalso
            have hc := (hiff.mp htrue) cur hcur hxid.symm
            omega
          · intro hall
            exfalso
            have hw2mem : w2 ∈ t.map (putReplace w1) ++ [w2] := (hmemF w2).mpr (Or.inr rfl)
            have hle := hall w2 hw2mem (by rw [hw2id, hxid])
            omega
        · -- unrelated id: maximality transfers both ways
          rw [hiff]
          constructor
          · intro hall r' hr' hid'
            rcases (hmemF r').mp hr' with ⟨x', hx', hxy'⟩ | hmem'
            · rw [hxy', putReplace_version]
              rw [hxy', putReplace_item_id] at hid'
              by_cases hsk' : sameKey x' w1
              · exfalso
                have hxc' := huniq x' hx' hsk'
                rw [hxc'] at hid'
                exact hxid hid'.symm
              · exact hall x' hx' hid'
            · exfalso
              rw [hmem'] at hid'
              rw [hw2id] at hid'
              exact hxid hid'.symm
          · intro hall r' hr' hid'
            have hr'mem : putReplace w1 r' ∈ t.map (putReplace w1) ++ [w2] :=
              (hmemF _).mpr (Or.inl ⟨r', hr', rfl⟩)
            have hle := hall (putReplace w1 r') hr'mem
              (by rw [putReplace_item_id]; exact hid')
            rw [putReplace_version] at hle
            exact hle
    · -- the freshly promoted latest
      rw [hmem]
      refine ⟨Or.inl hw2l, ?_⟩
      constructor
      · intro _ r' hr' hid'
        rcases (hmemF r').mp hr' with ⟨x', hx', hxy'⟩ | hmem'
        · rw [hxy', putReplace_version]
          rw [hxy', putReplace_item_id] at hid'
          have := hmax x' hx' (by rw [hid', hw2id])
          omega
        · rw [hmem']
      · intro _
        exact hw2l
  · -- density of versions
    intro r hr v hv1 hv2
    rcases (hmemF r).mp hr with ⟨x, hx, hxy⟩ | hmem
    · have hidr : r.item.id = x.item.id := by rw [hxy, putReplace_item_id]
      have hvr : r.version = x.version := by rw [hxy, putReplace_version]
      obtain ⟨r', hr', hrid, hrv⟩ := inv.dense x hx v hv1 (by omega)
      refine ⟨putReplace w1 r', (hmemF _).mpr (Or.inl ⟨r', hr', rfl⟩), ?_, ?_⟩
      · rw [putReplace_item_id, hidr]
        exact hrid
      · rw [putReplace_version]
        exact hrv
    · rw [hmem] at hv2 ⊢
      by_cases hveq : v = w2.version
      · exact ⟨w2, (hmemF w2).mpr (Or.inr rfl), rfl, hveq.symm⟩
      · have hvle : v ≤ cur.version := by omega
        obtain ⟨r', hr', hrid, hrv⟩ := inv.dense cur hcur v hv1 hvle
        refine ⟨putReplace w1 r', (hmemF _).mpr (Or.inl ⟨r', hr', rfl⟩), ?_, ?_⟩
        · rw [putReplace_item_id, hw2id]
          exact hrid
        · rw [putReplace_version]
          exact hrv

theorem ddbInv_update (t : List DDBRecord) (id : String) (now : Nat)
    (data : UpdateItemRequest) (inv : DdbInv t) :
    DdbInv (DynamoDBStorage.updateItem t id now data).2 := by
  cases hq : queryLatestRecord t id with
  | none =>
    simpa [DynamoDBStorage.updateItem, DynamoDBStorage.updateWrites, hq] using inv
  | some cur =>
    obtain ⟨hcur, hcid, hmax⟩ := queryLatestRecord_spec t id cur hq
    have hcoh := inv.coherent cur hcur
    have h2 := ddbInv_twoWrite t cur
      { cur with latestVersion := "false" }
      { item := applyUpdate cur.item data now
        version := (applyUpdate cur.item data now).metadata.version
        latestVersion := "true"
        lastModified := (applyUpdate cur.item data now).metadata.lastModified }
      hcur (fun r hr hid => hmax r hr (by rw [hid, hcid]))
      rfl rfl rfl rfl rfl
      (by
        show (applyUpdate cur.item data now).metadata.version = cur.version + 1
        rw [hcoh.1]
        rfl)
      rfl rfl rfl inv
    simpa [DynamoDBStorage.updateItem, DynamoDBStorage.updateWrites, hq] using h2

theorem ddbInv_snapshot (t : List DDBRecord) (id : String) (now : Nat) (inv : DdbInv t) :
    DdbInv (DynamoDBStorage.createVersion t id now).2 := by
  cases hq : queryLatestRecord t id with
  | none =>
    simpa [DynamoDBStorage.createVersion, DynamoDBStorage.snapshotWrites, hq] using inv
  | some cur =>
    obtain ⟨hcur, hcid, hmax⟩ := queryLatestRecord_spec t id cur hq
    have hcoh := inv.coherent cur hcur
    have h2 := ddbInv_twoWrite t cur
      { cur with latestVersion := "false" }
      { item := applySnapshot cur.item now
        version := (applySnapshot cur.item now).metadata.version
        latestVersion := "true"
        lastModified := (applySnapshot cur.item now).metadata.lastModified }
      hcur (fun r hr hid => hmax r hr (by rw [hid, hcid]))
      rfl rfl rfl rfl rfl
      (by
        show (applySnapshot cur.item now).metadata.version = cur.version + 1
        rw [hcoh.1]
        rfl)
      rfl rfl rfl inv
    simpa [DynamoDBStorage.createVersion, DynamoDBStorage.snapshotWrites, hq] using h2

theorem ddbInv_exec (t : List DDBRecord) (op : Op) (hf : ddbFresh t op) (inv : DdbInv t) :
    DdbInv (execDdb t op) := by
  cases op with
  | create id now data => exact ddbInv_create t id now data hf inv
  | update id now data => exact ddbInv_update t id now data inv
  | snapshot id now => exact ddbInv_snapshot t id now inv

theorem ddbInv_run (ops : List Op) (t : List DDBRecord) (inv : DdbInv t)
    (hok : ddbTraceOK t ops) : DdbInv (runDdb t ops) := by
  induction ops generalizing t with
  | nil => exact inv
  | cons op rest ih =>
    obtain ⟨hf, hok'⟩ := hok
    exact ih (execDdb t op) (ddbInv_exec t op hf inv) hok'

theorem ddbCreated_nil : DdbCreated [] := by
  intro r hr
  cases hr

theorem ddbCreated_twoWrite (t : List DDBRecord) (cur w1 w2 : DDBRecord)
    (hcur : cur ∈ t)
    (hmax : ∀ r ∈ t, r.item.id = cur.item.id → r.version ≤ cur.version)
    (hw1 : w1.item = cur.item) (hw1v : w1.version = cur.version)
    (hw2id : w2.item.id = cur.item.id) (hw2v : w2.version = cur.version + 1)
    (hcr : w2.item.metadata.created = cur.item.metadata.created)
    (inv : DdbInv t) (hc : DdbCreated t) :
    DdbCreated (ddbPut (ddbPut t w1) w2) := by
  have hskcur : sameKey cur w1 := ⟨by rw [hw1], by rw [hw1v]⟩
  have hput1 : ddbPut t w1 = t.map (putReplace w1) := ddbPut_existing t w1 cur hcur hskcur
  have huniq : ∀ x ∈ t, sameKey x w1 → x = cur := by
    intro x hx hsk
    exact ddbInv_key_unique inv hx hcur (by rw [hsk.1, hw1]) (by rw [hsk.2, hw1v])
  have hitem : ∀ x ∈ t, (putReplace w1 x).item = x.item := by
    intro x hx
    by_cases hsk : sameKey x w1
    · rw [putReplace_of_same w1 x hsk, hw1, huniq x hx hsk]
    · rw [putReplace_of_ne w1 x hsk]
  have hmid_no_w2key : ∀ y ∈ t.map (putReplace w1), ¬ sameKey y w2 := by
    intro y hy hsk
    obtain ⟨x, hx, hxy⟩ := List.mem_map.mp hy
    have hvy : y.version = x.version := by rw [← hxy, putReplace_version]
    have hidy : y.item.id = x.item.id := by rw [← hxy, putReplace_item_id]
    have hxid : x.item.id = cur.item.id := by rw [← hidy, hsk.1, hw2id]
    have hle := hmax x hx hxid
    have hskv : y.version = w2.version := hsk.2
    omega
  have hput2 : ddbPut (t.map (putReplace w1)) w2 = t.map (putReplace w1) ++ [w2] :=
    ddbPut_fresh _ w2 hmid_no_w2key
  rw [hput1, hput2]
  have hone : ∀ y ∈ t.map (putReplace w1) ++ [w2],
      ∃ x, (x ∈ t ∧ y.item = x.item) ∨ (y = w2 ∧ x = w2) := by
    intro y hy
    rcases List.mem_append.mp hy with hmem | hmem
    · obtain ⟨x, hx, hxy⟩ := List.mem_map.mp hmem
      exact ⟨x, Or.inl ⟨hx, by rw [← hxy, hitem x hx]⟩⟩
    · simp only [List.mem_singleton] at hmem
      exact ⟨w2, Or.inr ⟨hmem, rfl⟩⟩
  intro r hr r' hr' hid
  obtain ⟨x, hx⟩ := hone r hr
  obtain ⟨x', hx'⟩ := hone r' hr'
  rcases hx with ⟨hxt, hxi⟩ | ⟨hrw, _⟩ <;> rcases hx' with ⟨hxt', hxi'⟩ | ⟨hrw', _⟩
  · rw [hxi, hxi'] at hid ⊢
    exact hc x hxt x' hxt' hid
  · rw [hrw'] at hid ⊢
    rw [hxi] at hid ⊢
    rw [hcr]
    exact hc x hxt cur hcur (by rw [← hw2id, hid])
  · rw [hrw] at hid ⊢
    rw [hxi'] at hid ⊢
    rw [hcr]
    exact hc cur hcur x' hxt' (by rw [← hid, hw2id])
  · rw [hrw, hrw']

theorem ddbCreated_create (t : List DDBRecord) (newId : String) (now : Nat)
    (data : CreateItemRequest) (hfresh : ∀ r ∈ t, r.item.id ≠ newId) (hc : DdbCreated t) :
    DdbCreated (DynamoDBStorage.createItem t newId now data).2 := by
  rw [DynamoDBStorage.createItem, ddbPut_fresh _ _ (fun x hx hsk => hfresh x hx hsk.1)]
  intro r hr r' hr' hid
  rcases List.mem_append.mp hr with hmem | hmem <;>
    rcases List.mem_append.mp hr' with hmem' | hmem'
  · exact hc r hmem r' hmem' hid
  · simp only [List.mem_singleton] at hmem'
    rw [hmem'] at hid
    exact absurd hid (hfresh r hmem)
  · simp only [List.mem_singleton] at hmem
    rw [hmem] at hid
    exact absurd hid.symm (hfresh r' hmem')
  · simp only [List.mem_singleton] at hmem hmem'
    rw [hmem, hmem']

theorem ddbCreated_exec (t : List DDBRecord) (op : Op) (hf : ddbFresh t op)
    (hb : op.benign) (inv : DdbInv t) (hc : DdbCreated t) : DdbCreated (execDdb t op) := by
  cases op with
  | create id now data => exact ddbCreated_create t id now data hf hc
  | update id now data =>
    cases hq : queryLatestRecord t id with
    | none =>
      simpa [execDdb, DynamoDBStorage.updateItem, DynamoDBStorage.updateWrites, hq] using hc
    | some cur =>
      obtain ⟨hcur, hcid, hmax⟩ := queryLatestRecord_spec t id cur hq
      have hcoh := inv.coherent cur hcur
      have h2 := ddbCreated_twoWrite t cur
        { cur with latestVersion := "false" }
        { item := applyUpdate cur.item data now
          version := (applyUpdate cur.item data now).metadata.version
          latestVersion := "true"
          lastModified := (applyUpdate cur.item data now).metadata.lastModified }
        hcur (fun r hr hid => hmax r hr (by rw [hid, hcid]))
        rfl rfl rfl
        (by
          show (applyUpdate cur.item data now).metadata.version = cur.version + 1
          rw [hcoh.1]
          rfl)
        (applyUpdate_created cur.item data now hb)
        inv hc
      simpa [execDdb, DynamoDBStorage.updateItem, DynamoDBStorage.updateWrites, hq] using h2
  | snapshot id now =>
    cases hq : queryLatestRecord t id with
    | none =>
      simpa [execDdb, DynamoDBStorage.createVersion, DynamoDBStorage.snapshotWrites, hq] using hc
    | some cur =>
      obtain ⟨hcur, hcid, hmax⟩ := queryLatestRecord_spec t id cur hq
      have hcoh := inv.coherent cur hcur
      have h2 := ddbCreated_twoWrite t cur
        { cur with latestVersion := "false" }
        { item := applySnapshot cur.item now
          version := (applySnapshot cur.item now).metadata.version
          latestVersion := "true"
          lastModified := (applySnapshot cur.item now).metadata.lastModified }
        hcur (fun r hr hid => hmax r hr (by rw [hid, hcid]))
        rfl rfl rfl
        (by
          show (applySnapshot cur.item now).metadata.version = cur.version + 1
          rw [hcoh.1]
          rfl)
        (applySnapshot_created cur.item now)
        inv hc
      simpa [execDdb, DynamoDBStorage.createVersion, DynamoDBStorage.snapshotWrites, hq] using h2

theorem ddbCreated_run (ops : List Op) (t : List DDBRecord) (inv : DdbInv t)
    (hc : DdbCreated t) (hok : ddbTraceOK t ops) (hb : ∀ op ∈ ops, op.benign) :
    DdbCreated (runDdb t ops) := by
  induction ops generalizing t with
  | nil => exact hc
  | cons op rest ih =>
    obtain ⟨hf, hok'⟩ := hok
    exact ih (execDdb t op) (ddbInv_exec t op hf inv)
      (ddbCreated_exec t op hf (hb op (by simp)) inv hc) hok'
      (fun o ho => hb o (List.mem_cons_of_mem _ ho))

/-! ## Correctness of the pagination codec -/

theorem b64Val_b64Char : ∀ n < 64, b64Val (b64Char n) = some n := by decide

theorem b64Char_ne_61 : ∀ n < 64, b64Char n ≠ 61 := by decide

theorem base64_roundtrip : ∀ l : List Nat, (∀ b ∈ l, b < 256) →
    base64Decode (base64Encode l) = some l
  | [], _ => rfl
  | [a], h => by
    have ha : a < 256 := h a (by simp)
    have h1 : a / 4 < 64 := by omega
    have h2 : a % 4 * 16 < 64 := by omega
    simp only [base64Encode, base64Decode, b64Val_b64Char _ h1, b64Val_b64Char _ h2,
      if_pos rfl]
    simp
    omega
  | [a, b], h => by
    have ha : a < 256 := h a (by simp)
    have hb : b < 256 := h b (by simp)
    have h1 : a / 4 < 64 := by omega
    have h2 : a % 4 * 16 + b / 16 < 64 := by omega
    have h3 : b % 16 * 4 < 64 := by omega
    simp only [base64Encode, base64Decode, b64Val_b64Char _ h1, b64Val_b64Char _ h2,
      b64Val_b64Char _ h3, if_neg (b64Char_ne_61 _ h3), if_pos rfl]
    simp
    omega
  | a :: b :: c :: d :: rest, h => by
    have ha : a < 256 := h a (by simp)
    have hb : b < 256 := h b (by simp)
    have hc : c < 256 := h c (by simp)
    have ih := base64_roundtrip (d :: rest) (fun x hx => h x (by simp at hx ⊢; tauto))
    have h1 : a / 4 < 64 := by omega
    have h2 : a % 4 * 16 + b / 16 < 64 := by omega
    have h3 : b % 16 * 4 + c / 64 < 64 := by omega
    have h4 : c % 64 < 64 := by omega
    simp only [base64Encode, base64Decode, b64Val_b64Char _ h1, b64Val_b64Char _ h2,
      b64Val_b64Char _ h3, b64Val_b64Char _ h4, if_neg (b64Char_ne_61 _ h3),
      if_neg (b64Char_ne_61 _ h4)]
    rw [ih]
    have e1 : a / 4 * 4 + (a % 4 * 16 + b / 16) / 16 = a := by omega
    have e2 : (a % 4 * 16 + b / 16) % 16 * 16 + (b % 16 * 4 + c / 64) / 4 = b := by omega
    have e3 : (b % 16 * 4 + c / 64) % 4 * 64 + c % 64 = c := by omega
    simp [e1, e2, e3]
  | [a, b, c], h => by
    have ha : a < 256 := h a (by simp)
    have hb : b < 256 := h b (by simp)
    have hc : c < 256 := h c (by simp)
    have ih : base64Decode (base64Encode ([] : List Nat)) = some [] := rfl
    have h1 : a / 4 < 64 := by omega
    have h2 : a % 4 * 16 + b / 16 < 64 := by omega
    have h3 : b % 16 * 4 + c / 64 < 64 := by omega
    have h4 : c % 64 < 64 := by omega
    simp only [base64Encode, base64Decode, b64Val_b64Char _ h1, b64Val_b64Char _ h2,
      b64Val_b64Char _ h3, b64Val_b64Char _ h4, if_neg (b64Char_ne_61 _ h3),
      if_neg (b64Char_ne_61 _ h4)]
    have e1 : a / 4 * 4 + (a % 4 * 16 + b / 16) / 16 = a := by omega
    have e2 : (a % 4 * 16 + b / 16) % 16 * 16 + (b % 16 * 4 + c / 64) / 4 = b := by omega
    have e3 : (b % 16 * 4 + c / 64) % 4 * 64 + c % 64 = c := by omega
    simp [e1, e2, e3]

theorem base64Encode_lt (l : List Nat) : ∀ b ∈ base64Encode l, b < 128 := by
  have hchar : ∀ n, b64Char n < 128 := by
    intro n
    unfold b64Char
    split
    · omega
    · split
      · omega
      · split
        · omega
        · split <;> omega
  induction l using base64Encode.induct with
  | case1 => simp [base64Encode]
  | case2 a =>
    intro b hb
    simp only [base64Encode, List.mem_cons, List.mem_singleton] at hb
    rcases hb with rfl | rfl | rfl | h
    · exact hchar _
    · exact hchar _
    · omega
    · simp at h
      omega
  | case3 a a' =>
    intro b hb
    simp only [base64Encode, List.mem_cons, List.mem_singleton] at hb
    rcases hb with rfl | rfl | rfl | h
    · exact hchar _
    · exact hchar _
    · exact hchar _
    · simp at h
      omega
  | case4 a a' c rest ih =>
    intro b hb
    simp only [base64Encode, List.mem_cons] at hb
    rcases hb with rfl | rfl | rfl | rfl | h
    · exact hchar _
    · exact hchar _
    · exact hchar _
    · exact hchar _
    · exact ih b h

theorem natDigits_lt (n : Nat) : ∀ d ∈ natDigits n, d < 10 := by
  induction n using Nat.strong_induction_on with
  | _ n ih =>
    rw [natDigits]
    by_cases h0 : n = 0
    · simp [h0]
    · simp only [h0, if_false, List.mem_append, List.mem_singleton]
      intro d hd
      rcases hd with hd | hd
      · exact ih (n / 10) (Nat.div_lt_self (Nat.pos_of_ne_zero h0) (by omega)) d hd
      · omega

theorem natDigits_ne_nil (n : Nat) (h : n ≠ 0) : natDigits n ≠ [] := by
  rw [natDigits]
  simp [h]

theorem natBytes_digits (n : Nat) : ∀ c ∈ natBytes n, isDigitByte c = true := by
  intro c hc
  unfold natBytes at hc
  unfold isDigitByte
  by_cases h0 : n = 0
  · simp [h0] at hc
    simp [hc]
  · simp only [h0, if_false, List.mem_map] at hc
    obtain ⟨d, hd, hdc⟩ := hc
    have := natDigits_lt n d hd
    simp only [decide_eq_true_eq]
    omega

theorem natBytes_ne_nil (n : Nat) : natBytes n ≠ [] := by
  unfold natBytes
  by_cases h0 : n = 0
  · simp [h0]
  · simp only [h0, if_false]
    intro hmap
    exact natDigits_ne_nil n h0 (List.map_eq_nil.mp hmap)

theorem natBytes_lt (n : Nat) : ∀ c ∈ natBytes n, c < 128 := by
  intro c hc
  have := natBytes_digits n c hc
  unfold isDigitByte at this
  simp only [decide_eq_true_eq] at this
  omega

theorem foldl_natDigits (n : Nat) : ∀ acc : Nat,
    ((natDigits n).map (fun d => 48 + d)).foldl (fun acc c => acc * 10 + (c - 48)) acc =
      acc * 10 ^ (natDigits n).length + n := by
  induction n using Nat.strong_induction_on with
  | _ n ih =>
    intro acc
    by_cases h0 : n = 0
    · subst h0
      rw [natDigits]
      simp
    · rw [natDigits]
      simp only [h0, if_false, List.map_append, List.foldl_append, List.length_append]
      rw [ih (n / 10) (Nat.div_lt_self (Nat.pos_of_ne_zero h0) (by omega)) acc]
      simp only [List.map_cons, List.map_nil, List.foldl_cons, List.foldl_nil,
        List.length_cons, List.length_nil]
      have hsub : 48 + n % 10 - 48 = n % 10 := by omega
      rw [hsub]
      have halg : (acc * 10 ^ (natDigits (n / 10)).length + n / 10) * 10 + n % 10 =
          acc * (10 ^ (natDigits (n / 10)).length * 10) + (n / 10 * 10 + n % 10) := by
        ring
      rw [halg, ← pow_succ]
      congr 1
      omega

theorem foldl_natBytes (n : Nat) :
    (natBytes n).foldl (fun acc c => acc * 10 + (c - 48)) 0 = n := by
  unfold natBytes
  by_cases h0 : n = 0
  · simp [h0]
  · simp only [h0, if_false]
    rw [foldl_natDigits n 0]
    simp

theorem takeWhile_append_all (p : Nat → Bool) (xs rest : List Nat)
    (hall : ∀ x ∈ xs, p x = true) (hrest : rest.takeWhile p = []) :
    (xs ++ rest).takeWhile p = xs := by
  induction xs with
  | nil => simpa using hrest
  | cons x xs ih =>
    simp only [List.cons_append, List.takeWhile_cons, hall x (by simp)]
    rw [ih (fun y hy => hall y (by simp [hy]))]
    simp

theorem readNat_append (n : Nat) (rest : List Nat) (c0 : Nat)
    (hc : rest.head? = some c0) (hcd : isDigitByte c0 = false) :
    readNat (natBytes n ++ rest) = some (n, rest) := by
  have hrest : rest.takeWhile isDigitByte = [] := by
    cases rest with
    | nil => rfl
    | cons c cs =>
      simp only [List.head?_cons, Option.some.injEq] at hc
      subst hc
      simp [List.takeWhile_cons, hcd]
  unfold readNat
  rw [takeWhile_append_all isDigitByte (natBytes n) rest (natBytes_digits n) hrest]
  rw [if_neg (natBytes_ne_nil n)]
  rw [foldl_natBytes n, List.drop_left]

theorem dropLit_append (pre l : List Nat) : dropLit pre (pre ++ l) = some l := by
  induction pre with
  | nil => rfl
  | cons c cs ih =>
    simp only [List.cons_append, dropLit, if_pos rfl]
    exact ih

theorem takeUntilQuote_append (s rest : List Nat) (hs : ∀ c ∈ s, c ≠ 34) :
    takeUntilQuote (s ++ 34 :: rest) = some (s, rest) := by
  induction s with
  | nil => simp [takeUntilQuote]
  | cons c cs ih =>
    have hc : c ≠ 34 := hs c (by simp)
    simp only [List.cons_append, takeUntilQuote, if_neg hc, List.append_eq]
    rw [ih (fun x hx => hs x (by simp [hx]))]
    rfl

theorem charOfNat_toNat (n : Nat) (h : n < 128) : (Char.ofNat n).toNat = n := by
  have hv : n.isValidChar := Or.inl (by omega)
  simp only [Char.ofNat, hv, reduceDIte, Char.ofNatAux, Char.toNat]
  rfl

theorem bytesToStr_strBytes (s : String) : bytesToStr (strBytes s) = s := by
  unfold bytesToStr strBytes
  rw [List.map_map]
  have hmap : s.data.map (Char.ofNat ∘ Char.toNat) = s.data := by
    have h1 : s.data.map (Char.ofNat ∘ Char.toNat) = s.data.map id :=
      List.map_congr_left (fun c _ => Char.ofNat_toNat c)
    rw [h1, List.map_id]
  rw [hmap]

theorem strBytes_bytesToStr (l : List Nat) (h : ∀ c ∈ l, c < 128) :
    strBytes (bytesToStr l) = l := by
  unfold bytesToStr strBytes
  rw [List.map_map]
  have h1 : l.map (Char.toNat ∘ Char.ofNat) = l.map id :=
    List.map_congr_left (fun c hc => charOfNat_toNat c (h c hc))
  rw [h1, List.map_id]

theorem strBytes_lt (s : String) (h : tokenSafe s) : ∀ c ∈ strBytes s, c < 128 := by
  intro c hc
  obtain ⟨ch, hch, rfl⟩ := List.mem_map.mp hc
  exact (h ch hch).1

theorem strBytes_no_quote (s : String) (h : tokenSafe s) : ∀ c ∈ strBytes s, c ≠ 34 := by
  intro c hc
  obtain ⟨ch, hch, rfl⟩ := List.mem_map.mp hc
  exact (h ch hch).2.1

theorem jsonOfKey_lt (k : LastEvaluatedKey) (hid : tokenSafe k.id)
    (hlv : tokenSafe k.latestVersion) : ∀ b ∈ jsonOfKey k, b < 256 := by
  intro b hb
  unfold jsonOfKey at hb
  simp only [List.mem_append] at hb
  have hlit : ∀ (s : String), (∀ c ∈ strBytes s, c < 128) → b ∈ strBytes s → b < 256 := by
    intro s hs hbs
    have := hs b hbs
    omega
  rcases hb with ((((((((h | h) | h) | h) | h) | h) | h) | h) | h)
  · exact hlit _ (by decide) h
  · have := strBytes_lt k.id hid b h
    omega
  · exact hlit _ (by decide) h
  · have := natBytes_lt k.version b h
    omega
  · exact hlit _ (by decide) h
  · have := strBytes_lt k.latestVersion hlv b h
    omega
  · exact hlit _ (by decide) h
  · have := natBytes_lt k.lastModified b h
    omega
  · exact hlit _ (by decide) h

theorem readNat_append_str (n : Nat) (s : String) (X : List Nat) (c0 : Char)
    (hhead : s.data.head? = some c0) (hcd : isDigitByte c0.toNat = false) :
    readNat (natBytes n ++ (strBytes s ++ X)) = some (n, strBytes s ++ X) := by
  apply readNat_append n _ c0.toNat _ hcd
  cases hs : s.data with
  | nil =>
    rw [hs] at hhead
    cases hhead
  | cons c cs =>
    rw [hs] at hhead
    simp only [List.head?_cons, Option.some.injEq] at hhead
    subst hhead
    simp [strBytes, hs]

theorem readNat_append_str0 (n : Nat) (s : String) (c0 : Char)
    (hhead : s.data.head? = some c0) (hcd : isDigitByte c0.toNat = false) :
    readNat (natBytes n ++ strBytes s) = some (n, strBytes s) := by
  apply readNat_append n _ c0.toNat _ hcd
  cases hs : s.data with
  | nil =>
    rw [hs] at hhead
    cases hhead
  | cons c cs =>
    rw [hs] at hhead
    simp only [List.head?_cons, Option.some.injEq] at hhead
    subst hhead
    simp [strBytes, hs]

theorem dropLit_self (pre : List Nat) : dropLit pre pre = some [] := by
  have := dropLit_append pre []
  simpa using this

theorem parseKeyBytes_jsonOfKey (k : LastEvaluatedKey)
    (hid : tokenSafe k.id) (hlv : tokenSafe k.latestVersion) :
    parseKeyBytes (jsonOfKey k) = some k := by
  have hidq := strBytes_no_quote k.id hid
  have hlvq := strBytes_no_quote k.latestVersion hlv
  have e1 : strBytes "\",\"version\":" = 34 :: strBytes ",\"version\":" := rfl
  have e2 : strBytes "\",\"lastModified\":" = 34 :: strBytes ",\"lastModified\":" := rfl
  unfold jsonOfKey parseKeyBytes
  rw [e1, e2]
  simp only [List.append_assoc, List.cons_append]
  simp only [dropLit_append, takeUntilQuote_append _ _ hidq, takeUntilQuote_append _ _ hlvq,
    readNat_append_str k.version ",\"latestVersion\":\"" _ ',' rfl (by decide),
    readNat_append_str0 k.lastModified "\x7d" '\x7d' rfl (by decide),
    dropLit_self]
  simp [bytesToStr_strBytes]

/-- The continuation-token codec round trip. -/
theorem decodeToken_encodeToken (k : LastEvaluatedKey)
    (hid : tokenSafe k.id) (hlv : tokenSafe k.latestVersion) :
    decodeToken (encodeToken k) = some k := by
  unfold decodeToken encodeToken
  rw [strBytes_bytesToStr _ (base64Encode_lt (jsonOfKey k))]
  rw [base64_roundtrip (jsonOfKey k) (jsonOfKey_lt k hid hlv)]
  simp only [Option.some_bind]
  exact parseKeyBytes_jsonOfKey k hid hlv

/-! ## Properties of the index order -/

theorem gsiLE_iff (a b : DDBRecord) : gsiLE a b ↔
    ((b.lastModified < a.lastModified ∨ (b.lastModified = a.lastModified ∧
      (a.item.id < b.item.id ∨ (a.item.id = b.item.id ∧ a.version < b.version)))) ∨
    (a.lastModified = b.lastModified ∧ a.item.id = b.item.id ∧ a.version = b.version)) :=
  Iff.rfl

theorem keyBefore_irrefl (a : LastEvaluatedKey) : ¬ keyBefore a a := by
  unfold keyBefore
  rintro (h | ⟨h1, h2 | ⟨h2, h3⟩⟩)
  · omega
  · exact lt_irrefl _ h2
  · omega

theorem keyBefore_trans {a b c : LastEvaluatedKey} (hab : keyBefore a b)
    (hbc : keyBefore b c) : keyBefore a c := by
  unfold keyBefore at *
  rcases hab with h1 | ⟨h1, h2⟩
  · rcases hbc with g1 | ⟨g1, g2⟩
    · left
      omega
    · left
      omega
  · rcases hbc with g1 | ⟨g1, g2⟩
    · left
      omega
    · right
      refine ⟨by omega, ?_⟩
      rcases h2 with h2 | ⟨h2, h3⟩
      · rcases g2 with g2 | ⟨g2, g3⟩
        · exact Or.inl (lt_trans h2 g2)
        · exact Or.inl (g2 ▸ h2)
      · rcases g2 with g2 | ⟨g2, g3⟩
        · exact Or.inl (h2 ▸ g2)
        · exact Or.inr ⟨h2.trans g2, by omega⟩

theorem keyBefore_asymm {a b : LastEvaluatedKey} (hab : keyBefore a b) :
    ¬ keyBefore b a := by
  intro hba
  exact keyBefore_irrefl a (keyBefore_trans hab hba)

instance : IsTotal DDBRecord gsiLE := by
  constructor
  intro a b
  rw [gsiLE_iff, gsiLE_iff]
  rcases Nat.lt_trichotomy a.lastModified b.lastModified with h | h | h
  · exact Or.inr (Or.inl (Or.inl h))
  · rcases lt_trichotomy a.item.id b.item.id with hid | hid | hid
    · exact Or.inl (Or.inl (Or.inr ⟨h.symm, Or.inl hid⟩))
    · rcases Nat.lt_trichotomy a.version b.version with hv | hv | hv
      · exact Or.inl (Or.inl (Or.inr ⟨h.symm, Or.inr ⟨hid, hv⟩⟩))
      · exact Or.inl (Or.inr ⟨h, hid, hv⟩)
      · exact Or.inr (Or.inl (Or.inr ⟨h, Or.inr ⟨hid.symm, hv⟩⟩))
    · exact Or.inr (Or.inl (Or.inr ⟨h, Or.inl hid⟩))
  · exact Or.inl (Or.inl (Or.inl h))

instance : IsTrans DDBRecord gsiLE := by
  constructor
  intro a b c hab hbc
  rw [gsiLE_iff] at hab hbc ⊢
  rcases hab with hab | ⟨e1, e2, e3⟩
  · rcases hbc with hbc | ⟨f1, f2, f3⟩
    · exact Or.inl (keyBefore_trans (a := recKey a) (b := recKey b) (c := recKey c) hab hbc)
    · left
      rcases hab with h1 | ⟨h1, h2⟩
      · left
        omega
      · right
        refine ⟨by omega, ?_⟩
        rcases h2 with h2 | ⟨h2, h3⟩
        · exact Or.inl (f2 ▸ h2)
        · exact Or.inr ⟨h2.trans f2, by omega⟩
  · rcases hbc with hbc | ⟨f1, f2, f3⟩
    · left
      rcases hbc with h1 | ⟨h1, h2⟩
      · left
        omega
      · right
        refine ⟨by omega, ?_⟩
        rcases h2 with h2 | ⟨h2, h3⟩
        · exact Or.inl (e2 ▸ h2)
        · exact Or.inr ⟨e2.trans h2, by omega⟩
    · exact Or.inr ⟨e1.trans f1, e2.trans f2, e3.trans f3⟩

theorem gsiSorted_sorted (t : List DDBRecord) : List.Sorted gsiLE (gsiSorted t) :=
  List.sorted_insertionSort gsiLE _

theorem mem_gsiSorted (t : List DDBRecord) (r : DDBRecord) :
    r ∈ gsiSorted t ↔ r ∈ t ∧ r.latestVersion = "true" := by
  unfold gsiSorted
  rw [List.mem_insertionSort, List.mem_filter]
  simp

theorem gsiSorted_pairwise_keys (t : List DDBRecord) (inv : DdbInv t) :
    (gsiSorted t).Pairwise (fun a b => ¬ sameKey a b) := by
  have hsymm : Symmetric (fun a b : DDBRecord => ¬ sameKey a b) := by
    intro a b hab hba
    exact hab (sameKey_symm hba)
  have hperm : List.Perm (gsiSorted t) (t.filter (fun r => r.latestVersion = "true")) :=
    List.perm_insertionSort gsiLE _
  rw [List.Perm.pairwise_iff (fun hxy => hsymm hxy) hperm]
  exact inv.distinct.sublist (List.filter_sublist t)

theorem pairwise_and {α : Type} {R S : α → α → Prop} :
    ∀ {l : List α}, l.Pairwise R → l.Pairwise S → l.Pairwise (fun a b => R a b ∧ S a b) := by
  intro l
  induction l with
  | nil =>
    intro _ _
    exact List.Pairwise.nil
  | cons x rest ih =>
    intro hR hS
    obtain ⟨hRx, hR'⟩ := List.pairwise_cons.mp hR
    obtain ⟨hSx, hS'⟩ := List.pairwise_cons.mp hS
    exact List.Pairwise.cons (fun b hb => ⟨hRx b hb, hSx b hb⟩) (ih hR' hS')

theorem gsiSorted_strict (t : List DDBRecord) (inv : DdbInv t) :
    (gsiSorted t).Pairwise (fun a b => keyBefore (recKey a) (recKey b)) := by
  have h1 := gsiSorted_sorted t
  have h2 := gsiSorted_pairwise_keys t inv
  refine (pairwise_and h1 h2).imp ?_
  rintro a b ⟨hle, hnsk⟩
  rcases (gsiLE_iff a b).mp hle with h | ⟨e1, e2, e3⟩
  · exact h
  · exact absurd ⟨e2, e3⟩ hnsk

theorem filter_keyBefore_drop (l : List DDBRecord)
    (hp : l.Pairwise (fun a b => keyBefore (recKey a) (recKey b))) :
    ∀ (i : Nat) (hi : i < l.length),
      l.filter (fun r => decide (keyBefore (recKey (l.get ⟨i, hi⟩)) (recKey r))) =
        l.drop (i + 1) := by
  induction l with
  | nil =>
    intro i hi
    cases hi
  | cons x rest ih =>
    intro i hi
    obtain ⟨hx, hrest⟩ := List.pairwise_cons.mp hp
    cases i with
    | zero =>
      simp only [List.get, List.filter_cons]
      rw [if_neg (by simp [keyBefore_irrefl])]
      rw [List.filter_eq_self.mpr (fun r hr => by simpa using hx r hr)]
      rfl
    | succ i =>
      simp only [List.get, List.filter_cons]
      have hmem : rest.get ⟨i, by simpa using hi⟩ ∈ rest := List.get_mem rest _ _
      rw [if_neg (by simpa using keyBefore_asymm (hx _ hmem))]
      exact ih hrest i (by simpa using hi)

/-! ## Pagination of the durable backend's listing -/

theorem jsOrNat_pos (o : Option Nat) : 1 ≤ jsOrNat o 10 := by
  cases o with
  | none => simp [jsOrNat]
  | some n => cases n <;> simp [jsOrNat]

theorem ddb_listItems_page1 (t : List DDBRecord) (q : ListItemsQuery)
    (hq : jsStr q.nextToken = none) :
    DynamoDBStorage.listItems t q = Except.ok (pageOf (gsiSorted t) (jsOrNat q.limit 10)) := by
  unfold DynamoDBStorage.listItems
  rw [hq]

theorem pageOf_fst (l : List DDBRecord) (limit : Nat) :
    (pageOf l limit).1 = (l.take limit).map (fun r => r.item) := rfl

theorem pageOf_token (l : List DDBRecord) (limit : Nat) (hlim : 1 ≤ limit)
    (hlen : limit ≤ l.length) (h : limit - 1 < l.length) :
    pageOf l limit =
      ((l.take limit).map (fun r => r.item), limit,
        some (encodeToken (recKey (l.get ⟨limit - 1, h⟩)))) := by
  have hlast : (l.take limit).getLast? = some (l.get ⟨limit - 1, h⟩) := by
    rw [List.getLast?_eq_getElem?]
    have hlen' : (l.take limit).length = limit := by
      simp [hlen]
    rw [hlen']
    rw [List.getElem?_take, if_pos (by omega)]
    rw [List.getElem?_eq_getElem h]
    rfl
  simp only [pageOf]
  rw [hlast]
  simp only [if_pos hlen]
  have hlen' : (l.take limit).length = limit := by
    simp [hlen]
  rw [hlen']

theorem ddb_listItems_some_tok (t : List DDBRecord) (q : ListItemsQuery)
    (tok : String) (k : LastEvaluatedKey)
    (hq : jsStr q.nextToken = some tok) (hdec : decodeToken tok = some k) :
    DynamoDBStorage.listItems t q =
      Except.ok (pageOf ((gsiSorted t).filter (fun r => decide (keyBefore k (recKey r))))
        (jsOrNat q.limit 10)) := by
  simp only [DynamoDBStorage.listItems, hq, hdec]

theorem ddb_listItems_bad_tok (t : List DDBRecord) (q : ListItemsQuery) (tok : String)
    (hq : jsStr q.nextToken = some tok) (hdec : decodeToken tok = none) :
    DynamoDBStorage.listItems t q = Except.error "invalid continuation token" := by
  simp only [DynamoDBStorage.listItems, hq, hdec]

set_option maxHeartbeats 1000000 in
/-- The full pagination fact: the first page is the head of the index
traversal, its token decodes to the position of its last record, and any
follow-up call with that token returns the next slice, so the two pages
together are exactly an unbroken prefix of the unpaginated traversal. -/
theorem ddb_pagination (t : List DDBRecord) (inv : DdbInv t)
    (hsafe : ∀ r ∈ t, tokenSafe r.item.id)
    (q1 : ListItemsQuery) (hq1 : jsStr q1.nextToken = none)
    (hmore : jsOrNat q1.limit 10 ≤ (gsiSorted t).length) :
    ∃ tok,
      DynamoDBStorage.listItems t q1 =
        Except.ok (((gsiSorted t).take (jsOrNat q1.limit 10)).map (fun r => r.item),
          jsOrNat q1.limit 10, some tok) ∧
      ∀ q2 : ListItemsQuery, jsStr q2.nextToken = some tok →
        ∃ items2 c2 nt2,
          DynamoDBStorage.listItems t q2 = Except.ok (items2, c2, nt2) ∧
          ((gsiSorted t).take (jsOrNat q1.limit 10)).map (fun r => r.item) ++ items2 =
            ((gsiSorted t).take (jsOrNat q1.limit 10 + jsOrNat q2.limit 10)).map
              (fun r => r.item) := by
  have hlim1 := jsOrNat_pos q1.limit
  have hidx : jsOrNat q1.limit 10 - 1 < (gsiSorted t).length := by omega
  have hrec := List.get_mem (gsiSorted t) (jsOrNat q1.limit 10 - 1) hidx
  obtain ⟨hrec_t, hrec_flag⟩ := (mem_gsiSorted t _).mp hrec
  have hdecode :
      decodeToken (encodeToken (recKey ((gsiSorted t).get ⟨jsOrNat q1.limit 10 - 1, hidx⟩))) =
        some (recKey ((gsiSorted t).get ⟨jsOrNat q1.limit 10 - 1, hidx⟩)) := by
    apply decodeToken_encodeToken
    · exact hsafe _ hrec_t
    · show tokenSafe ((gsiSorted t).get ⟨jsOrNat q1.limit 10 - 1, hidx⟩).latestVersion
      rw [hrec_flag]
      decide
  refine ⟨encodeToken (recKey ((gsiSorted t).get ⟨jsOrNat q1.limit 10 - 1, hidx⟩)), ?_, ?_⟩
  · rw [ddb_listItems_page1 t q1 hq1,
      pageOf_token (gsiSorted t) (jsOrNat q1.limit 10) hlim1 hmore hidx]
  · intro q2 hq2
    have hfilter :
        (gsiSorted t).filter
          (fun r => decide (keyBefore
            (recKey ((gsiSorted t).get ⟨jsOrNat q1.limit 10 - 1, hidx⟩)) (recKey r))) =
          (gsiSorted t).drop (jsOrNat q1.limit 10) := by
      have hd := filter_keyBefore_drop (gsiSorted t) (gsiSorted_strict t inv)
        (jsOrNat q1.limit 10 - 1) hidx
      rw [hd]
      congr 1
      omega
    have hcall : DynamoDBStorage.listItems t q2 =
        Except.ok (pageOf ((gsiSorted t).drop (jsOrNat q1.limit 10)) (jsOrNat q2.limit 10)) := by
      rw [ddb_listItems_some_tok t q2 _ _ hq2 hdecode, hfilter]
    refine ⟨(((gsiSorted t).drop (jsOrNat q1.limit 10)).take (jsOrNat q2.limit 10)).map
        (fun r => r.item),
      (pageOf ((gsiSorted t).drop (jsOrNat q1.limit 10)) (jsOrNat q2.limit 10)).2.1,
      (pageOf ((gsiSorted t).drop (jsOrNat q1.limit 10)) (jsOrNat q2.limit 10)).2.2,
      ?_, ?_⟩
    · rw [hcall]
      rfl
    · rw [← List.map_append, List.take_add]

/-! ## Shape of any returned durable-backend page -/

theorem ddb_listItems_shape (t : List DDBRecord) (q : ListItemsQuery)
    (r : List ExamItem × Nat × Option String)
    (h : DynamoDBStorage.listItems t q = Except.ok r) :
    ∃ l : List DDBRecord, List.Sublist l (gsiSorted t) ∧
      r.1 = (l.take (jsOrNat q.limit 10)).map (fun x => x.item) := by
  cases htok : jsStr q.nextToken with
  | none =>
    rw [ddb_listItems_page1 t q htok] at h
    cases h
    exact ⟨gsiSorted t, List.Sublist.refl _, rfl⟩
  | some tok =>
    cases hdec : decodeToken tok with
    | none =>
      rw [ddb_listItems_bad_tok t q tok htok hdec] at h
      cases h
    | some k =>
      rw [ddb_listItems_some_tok t q tok k htok hdec] at h
      cases h
      exact ⟨_, List.filter_sublist _, rfl⟩

/-! ## Helpers for the claim theorems -/

theorem memHistory_last_version (h : List ExamItem) (hne : h ≠ [])
    (hidx : ∀ i (hi : i < h.length), (h.get ⟨i, hi⟩).metadata.version = i + 1)
    (it : ExamItem) (hlast : h.getLast? = some it) : it.metadata.version = h.length := by
  have hlen : h.length - 1 < h.length := by
    cases h with
    | nil => exact absurd rfl hne
    | cons a l => simp
  have hget : h.get ⟨h.length - 1, hlen⟩ = it := by
    have he := List.getLast?_eq_getElem? h
    rw [hlast, List.getElem?_eq_getElem hlen] at he
    exact (Option.some.injEq .. ▸ he.symm)
  have := hidx (h.length - 1) hlen
  rw [hget] at this
  omega

theorem mem_listItems_mem_values (s : MemoryStorage) (q : ListItemsQuery)
    (it : ExamItem) (h : it ∈ (s.listItems q).1) : it ∈ s.items.map Prod.snd := by
  unfold MemoryStorage.listItems at h
  simp only at h
  have h1 := List.take_subset _ _ h
  have h2 := List.drop_subset _ _ h1
  cases hst : jsStr q.status with
  | none =>
    rw [hst] at h2
    cases hsu : jsStr q.subject with
    | none =>
      rw [hsu] at h2
      exact h2
    | some subj =>
      rw [hsu] at h2
      exact (List.filter_sublist _).subset h2
  | some st =>
    rw [hst] at h2
    have h3 := (List.filter_sublist _).subset h2
    cases hsu : jsStr q.subject with
    | none =>
      rw [hsu] at h3
      exact h3
    | some subj =>
      rw [hsu] at h3
      exact (List.filter_sublist _).subset h3

theorem mem_values_latest (s : MemoryStorage) (inv : MemInv s) (it : ExamItem)
    (h : it ∈ s.items.map Prod.snd) :
    s.getItem it.id = some it ∧
      ∀ v ∈ s.getAuditTrail it.id, v.metadata.version ≤ it.metadata.version := by
  obtain ⟨⟨k, it'⟩, hmem, hsnd⟩ := List.mem_map.mp h
  simp only at hsnd
  rw [hsnd] at hmem
  have hget : mapGet s.items k = some it := mapGet_of_mem s.items k it inv.nodupItems hmem
  have hvs : mapGet s.versions k ≠ none := by
    intro hnone
    rw [(inv.keys k).mpr hnone] at hget
    cases hget
  obtain ⟨hst, hh⟩ := Option.ne_none_iff_exists'.mp hvs
  obtain ⟨hne, hidx, hids, hlast⟩ := inv.history k hst hh
  have hlast' : hst.getLast? = some it := by rw [← hlast, hget]
  have hid : it.id = k := hids it (List.mem_of_mem_getLast? hlast')
  have hver : it.metadata.version = hst.length :=
    memHistory_last_version hst hne hidx it hlast'
  subst hid
  refine ⟨hget, ?_⟩
  intro v hv
  unfold MemoryStorage.getAuditTrail at hv
  rw [hh] at hv
  simp only [Option.getD_some] at hv
  obtain ⟨i, rfl⟩ := List.mem_iff_get.mp hv
  have hiv : (hst.get i).metadata.version = i.1 + 1 := hidx i.1 i.2
  have hi2 := i.2
  omega

theorem gsiLE_lastModified {a b : DDBRecord} (h : gsiLE a b) :
    b.lastModified ≤ a.lastModified := by
  rcases (gsiLE_iff a b).mp h with (h | ⟨h, _⟩) | ⟨h, _, _⟩ <;> omega

theorem ddbInv_nodup (t : List DDBRecord) (inv : DdbInv t) : t.Nodup := by
  refine inv.distinct.imp ?_
  intro a b hab heq
  exact hab (heq ▸ ⟨rfl, rfl⟩)

theorem ddbInv_count (t : List DDBRecord) (inv : DdbInv t) (cur : DDBRecord)
    (hcur : cur ∈ t)
    (hmax : ∀ r ∈ t, r.item.id = cur.item.id → r.version ≤ cur.version) :
    (t.filter (fun r => r.item.id = cur.item.id)).length = cur.version := by
  have hsub : List.Sublist (t.filter (fun r => r.item.id = cur.item.id)) t :=
    List.filter_sublist t
  have hpw : (t.filter (fun r => r.item.id = cur.item.id)).Pairwise
      (fun a b => a.version ≠ b.version) := by
    refine (inv.distinct.sublist hsub).imp_of_mem ?_
    intro a b ha hb hab hveq
    have haid := List.mem_filter.mp ha
    have hbid := List.mem_filter.mp hb
    simp only [decide_eq_true_eq] at haid hbid
    exact hab ⟨haid.2.trans hbid.2.symm, hveq⟩
  have hnd : ((t.filter (fun r => r.item.id = cur.item.id)).map
      (fun r => r.version)).Nodup := by
    unfold List.Nodup
    rw [List.pairwise_map]
    exact hpw
  have hset : ((t.filter (fun r => r.item.id = cur.item.id)).map
      (fun r => r.version)).toFinset = Finset.Icc 1 cur.version := by
    apply Finset.ext
    intro v
    rw [List.mem_toFinset, Finset.mem_Icc, List.mem_map]
    constructor
    · rintro ⟨r, hr, rfl⟩
      have hmemf := List.mem_filter.mp hr
      simp only [decide_eq_true_eq] at hmemf
      exact ⟨(inv.coherent r hmemf.1).2.2, hmax r hmemf.1 hmemf.2⟩
    · rintro ⟨hv1, hv2⟩
      obtain ⟨r', hr', hrid, hrv⟩ := inv.dense cur hcur v hv1 hv2
      exact ⟨r', List.mem_filter.mpr ⟨hr', by simp [hrid]⟩, hrv⟩
  have hcard := List.toFinset_card_of_nodup hnd
  rw [hset, Nat.card_Icc] at hcard
  have hlenmap : ((t.filter (fun r => r.item.id = cur.item.id)).map
      (fun r => r.version)).length = (t.filter (fun r => r.item.id = cur.item.id)).length :=
    List.length_map _ _
  omega

theorem filter_length_one (t : List DDBRecord) (p : DDBRecord → Bool) (x : DDBRecord)
    (hnd : t.Nodup) (hx : x ∈ t) (hpx : p x = true)
    (honly : ∀ y ∈ t, p y = true → y = x) : (t.filter p).length = 1 := by
  induction t with
  | nil => cases hx
  | cons a rest ih =>
    obtain ⟨hna, hnd'⟩ := List.nodup_cons.mp hnd
    rcases List.mem_cons.mp hx with hax | hxr
    · subst hax
      rw [List.filter_cons, if_pos hpx]
      have hrest : rest.filter p = [] := by
        rw [List.filter_eq_nil]
        intro y hy hpy
        have := honly y (List.mem_cons_of_mem _ hy) hpy
        subst this
        exact hna hy
      rw [hrest]
      rfl
    · have hax : a ≠ x := by
        intro haxx
        subst haxx
        exact hna hxr
      have hpa : ¬ p a = true := by
        intro hpa
        exact hax (honly a (by simp) hpa)
      rw [List.filter_cons, if_neg hpa]
      exact ih hnd' hxr (fun y hy hpy => honly y (List.mem_cons_of_mem _ hy) hpy)

/-! ## The claims -/

/-- C1, counterexample to the claim as stated: the durable backend's
`getAuditTrail` does not return the empty sequence for an unknown id — it
throws its not-implemented error. -/
theorem C1_counterexample :
    DynamoDBStorage.getAuditTrail [] "unknown-id" =
      Except.error "Not implemented - define your audit trail strategy" := rfl

/-- C1, amended: the in-memory backend's `getAuditTrail` returns every stored
version of `id` in ascending version order, and the empty sequence — not an
error — when `id` is unknown; the durable backend's `getAuditTrail` throws
"Not implemented" for every id, so "for every backend" fails. -/
theorem C1_auditTrail (ops : List Op) (hok : memTraceOK MemoryStorage.empty ops) :
    (∀ id, (runMem MemoryStorage.empty ops).getItem id = none →
      (runMem MemoryStorage.empty ops).getAuditTrail id = []) ∧
    (∀ id, ((runMem MemoryStorage.empty ops).getAuditTrail id).Pairwise
      (fun a b => a.metadata.version < b.metadata.version)) ∧
    (∀ (t : List DDBRecord) (id : String), DynamoDBStorage.getAuditTrail t id =
      Except.error "Not implemented - define your audit trail strategy") := by
  have inv := memInv_run ops MemoryStorage.empty memInv_empty hok
  refine ⟨?_, ?_, fun t id => rfl⟩
  · intro id hnone
    unfold MemoryStorage.getItem at hnone
    unfold MemoryStorage.getAuditTrail
    rw [(inv.keys id).mp hnone]
    rfl
  · intro id
    unfold MemoryStorage.getAuditTrail
    cases hh : mapGet (runMem MemoryStorage.empty ops).versions id with
    | none => simp
    | some h =>
      simp only [Option.getD_some]
      obtain ⟨hne, hidx, _, _⟩ := inv.history id h hh
      rw [List.pairwise_iff_get]
      intro i j hij
      have h1 : (h.get i).metadata.version = i.1 + 1 := hidx i.1 i.2
      have h2 : (h.get j).metadata.version = j.1 + 1 := hidx j.1 j.2
      have h3 : i.1 < j.1 := hij
      omega

/-- Witness for C1: the amended theorem applied to a concrete trace. -/
theorem C1_auditTrail_witness :
    memTraceOK MemoryStorage.empty sampleOps ∧
    ((∀ id, (runMem MemoryStorage.empty sampleOps).getItem id = none →
      (runMem MemoryStorage.empty sampleOps).getAuditTrail id = []) ∧
    (∀ id, ((runMem MemoryStorage.empty sampleOps).getAuditTrail id).Pairwise
      (fun a b => a.metadata.version < b.metadata.version)) ∧
    (∀ (t : List DDBRecord) (id : String), DynamoDBStorage.getAuditTrail t id =
      Except.error "Not implemented - define your audit trail strategy")) :=
  ⟨by decide, C1_auditTrail sampleOps (by decide)⟩

/-- C3, counterexample to the claim as stated: the durable backend's
`listItems`, asked for subject "Nope", returns the stored item whose subject
is "AP Biology" — the supplied equality filter is not applied at all. -/
theorem C3_counterexample :
    DynamoDBStorage.listItems (runDdb [] [Op.create "item-a" 0 sampleCreate])
        { limit := none, offset := none, subject := some "Nope", status := none,
          nextToken := none } =
      Except.ok ([mkCreatedItem "item-a" 0 sampleCreate], 1, none) ∧
    (mkCreatedItem "item-a" 0 sampleCreate).subject ≠ "Nope" := by
  constructor
  · rfl
  · decide

/-- C3, amended: the durable backend's `listItems` ignores the `subject` and
`status` equality filters entirely — every call returns exactly what the
filter-free query returns, so returned items need not satisfy the supplied
filters (only the in-memory backend applies them). -/
theorem C3_filters_ignored (t : List DDBRecord) (q : ListItemsQuery) :
    DynamoDBStorage.listItems t q =
      DynamoDBStorage.listItems t
        { limit := q.limit, offset := q.offset, subject := none, status := none,
          nextToken := q.nextToken } := rfl

/-- C10: in every reachable in-memory state, each known id's history is
non-empty, holds version `i + 1` at index `i` (strictly increasing from 1),
every element carries that id, and the current-items entry is the last element
of the history — so `getItem` returns the last element of `getAuditTrail`. -/
theorem C10_memory_history (ops : List Op) (hok : memTraceOK MemoryStorage.empty ops) :
    ∀ id h, mapGet (runMem MemoryStorage.empty ops).versions id = some h →
      h ≠ [] ∧
      (∀ i (hi : i < h.length), (h.get ⟨i, hi⟩).metadata.version = i + 1) ∧
      (∀ it ∈ h, it.id = id) ∧
      (runMem MemoryStorage.empty ops).getItem id = h.getLast? ∧
      (runMem MemoryStorage.empty ops).getItem id =
        ((runMem MemoryStorage.empty ops).getAuditTrail id).getLast? := by
  intro id h hh
  have inv := memInv_run ops MemoryStorage.empty memInv_empty hok
  obtain ⟨hne, hidx, hids, hlast⟩ := inv.history id h hh
  refine ⟨hne, hidx, hids, hlast, ?_⟩
  unfold MemoryStorage.getAuditTrail
  rw [hh]
  exact hlast

/-- Witness for C10: the invariant applied to a concrete trace. -/
theorem C10_memory_history_witness :
    memTraceOK MemoryStorage.empty sampleOps ∧
    (∀ id h, mapGet (runMem MemoryStorage.empty sampleOps).versions id = some h →
      h ≠ [] ∧
      (∀ i (hi : i < h.length), (h.get ⟨i, hi⟩).metadata.version = i + 1) ∧
      (∀ it ∈ h, it.id = id) ∧
      (runMem MemoryStorage.empty sampleOps).getItem id = h.getLast? ∧
      (runMem MemoryStorage.empty sampleOps).getItem id =
        ((runMem MemoryStorage.empty sampleOps).getAuditTrail id).getLast?) :=
  ⟨by decide, C10_memory_history sampleOps (by decide)⟩

/-- C9: with no `limit` parameter both backends default the page size to 10
(and the in-memory backend defaults `offset` to 0), so any call without a
limit returns at most 10 items. -/
theorem C9_default_limit (s : MemoryStorage) (t : List DDBRecord) (q : ListItemsQuery)
    (hlim : q.limit = none) :
    (s.listItems q).1.length ≤ 10 ∧
    (q.offset = none →
      s.listItems q =
        s.listItems
          { limit := some 10, offset := some 0, subject := q.subject,
            status := q.status, nextToken := q.nextToken }) ∧
    DynamoDBStorage.listItems t q =
      DynamoDBStorage.listItems t
        { limit := some 10, offset := q.offset, subject := q.subject, status := q.status,
          nextToken := q.nextToken } ∧
    (∀ r, DynamoDBStorage.listItems t q = Except.ok r → r.1.length ≤ 10) := by
  obtain ⟨ql, qo, qs, qst, qn⟩ := q
  simp only at hlim
  subst hlim
  refine ⟨?_, ?_, rfl, ?_⟩
  · simp only [MemoryStorage.listItems]
    exact List.length_take_le _ _
  · intro hoff
    simp only at hoff
    subst hoff
    rfl
  · intro r hr
    obtain ⟨l, _, hfst⟩ := ddb_listItems_shape t _ r hr
    rw [hfst]
    calc (List.map (fun x => x.item) (l.take (jsOrNat none 10))).length
        = (l.take (jsOrNat none 10)).length := List.length_map _ _
      _ ≤ jsOrNat none 10 := List.length_take_le _ _
      _ = 10 := rfl

/-- Witness for C9: the defaults applied to a concrete no-limit query. -/
theorem C9_default_limit_witness :
    emptyQuery.limit = none ∧
    ((MemoryStorage.empty.listItems emptyQuery).1.length ≤ 10 ∧
    (emptyQuery.offset = none →
      MemoryStorage.empty.listItems emptyQuery =
        MemoryStorage.empty.listItems
          { limit := some 10, offset := some 0, subject := emptyQuery.subject,
            status := emptyQuery.status, nextToken := emptyQuery.nextToken }) ∧
    DynamoDBStorage.listItems [] emptyQuery =
      DynamoDBStorage.listItems []
        { limit := some 10, offset := emptyQuery.offset, subject := emptyQuery.subject,
          status := emptyQuery.status, nextToken := emptyQuery.nextToken } ∧
    (∀ r, DynamoDBStorage.listItems [] emptyQuery = Except.ok r → r.1.length ≤ 10)) :=
  ⟨rfl, C9_default_limit MemoryStorage.empty [] emptyQuery rfl⟩

/-- C5, counterexample to the claim as stated: an update payload allowed by
the storage interface (`metadata: Partial<...>` with `created: 99`) changes
`metadata.created`, so `created` is not identical across the two versions. -/
theorem C5_counterexample :
    ¬ (∀ x ∈ (runMem MemoryStorage.empty
        [Op.create "item-a" 0 sampleCreate, Op.update "item-a" 1 createdOverride]).getAuditTrail
          "item-a",
        ∀ y ∈ (runMem MemoryStorage.empty
        [Op.create "item-a" 0 sampleCreate, Op.update "item-a" 1 createdOverride]).getAuditTrail
          "item-a",
        x.metadata.created = y.metadata.created) := by decide

/-- C5, amended: `metadata.created` is identical across all versions of an id
on both backends for every trace whose update payloads do not themselves set
`metadata.created` — which includes every payload the update handler's
validation schema admits; the unrestricted storage interface additionally
allows a `metadata.created` override, which replaces it. -/
theorem C5_created_constant (ops : List Op) (hb : ∀ op ∈ ops, op.benign) :
    (memTraceOK MemoryStorage.empty ops →
      ∀ id, ∀ x ∈ (runMem MemoryStorage.empty ops).getAuditTrail id,
        ∀ y ∈ (runMem MemoryStorage.empty ops).getAuditTrail id,
          x.metadata.created = y.metadata.created) ∧
    (ddbTraceOK [] ops →
      ∀ r ∈ runDdb [] ops, ∀ r' ∈ runDdb [] ops, r.item.id = r'.item.id →
        r.item.metadata.created = r'.item.metadata.created) := by
  constructor
  · intro hok id x hx y hy
    have hc := memCreated_run ops MemoryStorage.empty memInv_empty memCreated_empty hok hb
    unfold MemoryStorage.getAuditTrail at hx hy
    cases hh : mapGet (runMem MemoryStorage.empty ops).versions id with
    | none =>
      rw [hh] at hx
      cases hx
    | some h =>
      rw [hh] at hx hy
      exact hc id h hh x hx y hy
  · intro hok
    exact ddbCreated_run ops [] ddbInv_nil ddbCreated_nil hok hb

/-- Witness for C5: the amended constancy applied to a concrete benign trace
of a create, a benign update and a snapshot. -/
theorem C5_created_constant_witness :
    (∀ op ∈ [Op.create "item-a" 0 sampleCreate, Op.update "item-a" 1 sampleUpdate,
        Op.snapshot "item-a" 2], op.benign) ∧
    memTraceOK MemoryStorage.empty [Op.create "item-a" 0 sampleCreate,
        Op.update "item-a" 1 sampleUpdate, Op.snapshot "item-a" 2] ∧
    ddbTraceOK [] [Op.create "item-a" 0 sampleCreate, Op.update "item-a" 1 sampleUpdate,
        Op.snapshot "item-a" 2] ∧
    ((∀ id, ∀ x ∈ (runMem MemoryStorage.empty [Op.create "item-a" 0 sampleCreate,
        Op.update "item-a" 1 sampleUpdate, Op.snapshot "item-a" 2]).getAuditTrail id,
        ∀ y ∈ (runMem MemoryStorage.empty [Op.create "item-a" 0 sampleCreate,
        Op.update "item-a" 1 sampleUpdate, Op.snapshot "item-a" 2]).getAuditTrail id,
          x.metadata.created = y.metadata.created) ∧
    (∀ r ∈ runDdb [] [Op.create "item-a" 0 sampleCreate, Op.update "item-a" 1 sampleUpdate,
        Op.snapshot "item-a" 2],
      ∀ r' ∈ runDdb [] [Op.create "item-a" 0 sampleCreate, Op.update "item-a" 1 sampleUpdate,
        Op.snapshot "item-a" 2], r.item.id = r'.item.id →
        r.item.metadata.created = r'.item.metadata.created)) :=
  ⟨by decide, by decide, by decide,
    (C5_created_constant _ (by decide)).1 (by decide),
    (C5_created_constant _ (by decide)).2 (by decide)⟩

/-- C2, counterexample to the claim as stated: after creating two items at
times 0 and 1, the in-memory backend's page lists the older item first — the
page is in `Map` insertion order, not newest-`lastModified`-first. -/
theorem C2_counterexample :
    ¬ (((runMem MemoryStorage.empty sampleOps).listItems emptyQuery).1.Pairwise
      (fun x y => y.metadata.lastModified ≤ x.metadata.lastModified)) := by decide

/-- C2, amended: on every reachable state of either backend, every item of a
returned page is the current (maximal-version) record of its id; the durable
backend additionally orders pages newest-`lastModified`-first, while the
in-memory backend returns the current items in id-insertion order, without
sorting by `lastModified`. -/
theorem C2_listItems_latest (ops : List Op) :
    (memTraceOK MemoryStorage.empty ops →
      ∀ q it, it ∈ ((runMem MemoryStorage.empty ops).listItems q).1 →
        (runMem MemoryStorage.empty ops).getItem it.id = some it ∧
        ∀ v ∈ (runMem MemoryStorage.empty ops).getAuditTrail it.id,
          v.metadata.version ≤ it.metadata.version) ∧
    (ddbTraceOK [] ops →
      ∀ q r, DynamoDBStorage.listItems (runDdb [] ops) q = Except.ok r →
        (∀ it ∈ r.1, ∃ rec ∈ runDdb [] ops, rec.item = it ∧ rec.latestVersion = "true" ∧
          ∀ rec' ∈ runDdb [] ops, rec'.item.id = it.id →
            rec'.item.metadata.version ≤ it.metadata.version) ∧
        r.1.Pairwise (fun a b => b.metadata.lastModified ≤ a.metadata.lastModified)) := by
  constructor
  · intro hok q it hmem
    have inv := memInv_run ops MemoryStorage.empty memInv_empty hok
    exact mem_values_latest _ inv it (mem_listItems_mem_values _ q it hmem)
  · intro hok q r hr
    have inv := ddbInv_run ops [] ddbInv_nil hok
    obtain ⟨l, hsub, hfst⟩ := ddb_listItems_shape _ q r hr
    constructor
    · intro it hit
      rw [hfst] at hit
      obtain ⟨x, hx, hxit⟩ := List.mem_map.mp hit
      have hxl : x ∈ gsiSorted (runDdb [] ops) :=
        hsub.subset (List.take_subset _ _ hx)
      obtain ⟨hxt, hxflag⟩ := (mem_gsiSorted _ x).mp hxl
      refine ⟨x, hxt, hxit, hxflag, ?_⟩
      intro rec' hrec' hrid
      have hmax := (inv.latest x hxt).2.mp hxflag rec' hrec' (by rw [hrid, ← hxit])
      have hc1 := (inv.coherent x hxt).1
      have hc2 := (inv.coherent rec' hrec').1
      rw [← hxit]
      omega
    · rw [hfst]
      rw [List.pairwise_map]
      have hsorted : List.Sorted gsiLE (l.take (jsOrNat q.limit 10)) :=
        (gsiSorted_sorted (runDdb [] ops)).sublist
          ((List.take_sublist _ _).trans hsub)
      refine hsorted.imp_of_mem ?_
      intro a b ha hb hab
      have halm := gsiLE_lastModified hab
      have hat : a ∈ runDdb [] ops :=
        ((mem_gsiSorted _ a).mp (hsub.subset (List.take_subset _ _ ha))).1
      have hbt : b ∈ runDdb [] ops :=
        ((mem_gsiSorted _ b).mp (hsub.subset (List.take_subset _ _ hb))).1
      have hca := (inv.coherent a hat).2.1
      have hcb := (inv.coherent b hbt).2.1
      omega

/-- Witness for C2: the amended theorem applied to a concrete trace. -/
theorem C2_listItems_latest_witness :
    memTraceOK MemoryStorage.empty sampleOps ∧
    ddbTraceOK [] sampleOps ∧
    ((∀ q it, it ∈ ((runMem MemoryStorage.empty sampleOps).listItems q).1 →
      (runMem MemoryStorage.empty sampleOps).getItem it.id = some it ∧
      ∀ v ∈ (runMem MemoryStorage.empty sampleOps).getAuditTrail it.id,
        v.metadata.version ≤ it.metadata.version) ∧
    (∀ q r, DynamoDBStorage.listItems (runDdb [] sampleOps) q = Except.ok r →
      (∀ it ∈ r.1, ∃ rec ∈ runDdb [] sampleOps, rec.item = it ∧ rec.latestVersion = "true" ∧
        ∀ rec' ∈ runDdb [] sampleOps, rec'.item.id = it.id →
          rec'.item.metadata.version ≤ it.metadata.version) ∧
      r.1.Pairwise (fun a b => b.metadata.lastModified ≤ a.metadata.lastModified))) :=
  ⟨by decide, by decide,
    (C2_listItems_latest sampleOps).1 (by decide),
    (C2_listItems_latest sampleOps).2 (by decide)⟩

theorem applyUpdate_frame (it : ExamItem) (data : UpdateItemRequest) (now : Nat) :
    UpdateFrame it (applyUpdate it data now) data now := by
  refine ⟨?_, ?_, ?_, ?_, ?_, ?_, rfl, rfl⟩
  · intro h
    simp [applyUpdate, h]
  · intro h
    simp [applyUpdate, h]
  · intro h
    simp [applyUpdate, h]
  · intro h
    simp [applyUpdate, h]
  · intro h
    simp [applyUpdate, h]
  · intro p hp
    refine ⟨?_, ?_, ?_, ?_, ?_, ?_, ?_, ?_⟩ <;> intro h
    · simp [applyUpdate, hp, mergeContent, h]
    · intro hv
      simp [applyUpdate, hp, mergeContent, hv]
    · simp [applyUpdate, hp, mergeContent, h]
    · intro hv
      simp [applyUpdate, hp, mergeContent, hv]
    · simp [applyUpdate, hp, mergeContent, h]
    · intro hv
      simp [applyUpdate, hp, mergeContent, hv]
    · simp [applyUpdate, hp, mergeContent, h]
    · intro hv
      simp [applyUpdate, hp, mergeContent, hv]

/-- C4: on either backend, `updateItem` on an existing id with a partial
payload leaves every domain field absent from the payload unchanged, merges
`content` key-by-key rather than wholesale, bumps `metadata.version` by
exactly 1, and — the call's `Date.now()` reading being later than the
previous `lastModified` — strictly increases `metadata.lastModified`. -/
theorem C4_update_frame (id : String) (now : Nat) (data : UpdateItemRequest)
    (s : MemoryStorage) (t : List DDBRecord) :
    (∀ it it' s', s.getItem id = some it → it.metadata.lastModified < now →
      s.updateItem id now data = (some it', s') →
      UpdateFrame it it' data now ∧
        it.metadata.lastModified < it'.metadata.lastModified) ∧
    (∀ it it' t', DynamoDBStorage.getItem t id = some it →
      it.metadata.lastModified < now →
      DynamoDBStorage.updateItem t id now data = (some it', t') →
      UpdateFrame it it' data now ∧
        it.metadata.lastModified < it'.metadata.lastModified) := by
  constructor
  · intro it it' s' hget hlt hupd
    unfold MemoryStorage.getItem at hget
    unfold MemoryStorage.updateItem at hupd
    rw [hget] at hupd
    simp only [Prod.mk.injEq, Option.some.injEq] at hupd
    obtain ⟨hit', _⟩ := hupd
    subst hit'
    exact ⟨applyUpdate_frame it data now, hlt⟩
  · intro it it' t' hget hlt hupd
    unfold DynamoDBStorage.getItem at hget
    obtain ⟨cur, hq, hcur⟩ := Option.map_eq_some'.mp hget
    unfold DynamoDBStorage.updateItem DynamoDBStorage.updateWrites at hupd
    rw [hq] at hupd
    simp only [Prod.mk.injEq, Option.some.injEq] at hupd
    obtain ⟨hit', _⟩ := hupd
    subst hit'
    rw [hcur]
    exact ⟨applyUpdate_frame it data now, hlt⟩

/-- Witness for C4: a concrete update of a freshly created item. -/
theorem C4_update_frame_witness :
    (runMem MemoryStorage.empty [Op.create "item-a" 0 sampleCreate]).getItem "item-a" =
      some (mkCreatedItem "item-a" 0 sampleCreate) ∧
    (mkCreatedItem "item-a" 0 sampleCreate).metadata.lastModified < 5 ∧
    (runMem MemoryStorage.empty [Op.create "item-a" 0 sampleCreate]).updateItem "item-a" 5
        sampleUpdate =
      (some (applyUpdate (mkCreatedItem "item-a" 0 sampleCreate) sampleUpdate 5),
        (runMem MemoryStorage.empty
          [Op.create "item-a" 0 sampleCreate]).updateItem "item-a" 5 sampleUpdate |>.2) ∧
    (UpdateFrame (mkCreatedItem "item-a" 0 sampleCreate)
        (applyUpdate (mkCreatedItem "item-a" 0 sampleCreate) sampleUpdate 5) sampleUpdate 5 ∧
      (mkCreatedItem "item-a" 0 sampleCreate).metadata.lastModified <
        (applyUpdate (mkCreatedItem "item-a" 0 sampleCreate)
          sampleUpdate 5).metadata.lastModified) :=
  ⟨by decide, by decide, by decide,
    (C4_update_frame "item-a" 5 sampleUpdate
        (runMem MemoryStorage.empty [Op.create "item-a" 0 sampleCreate]) []).1
      (mkCreatedItem "item-a" 0 sampleCreate)
      (applyUpdate (mkCreatedItem "item-a" 0 sampleCreate) sampleUpdate 5)
      ((runMem MemoryStorage.empty
        [Op.create "item-a" 0 sampleCreate]).updateItem "item-a" 5 sampleUpdate).2
      (by decide) (by decide) (by decide)⟩

/-- C6: on either backend, `getItem` (a pure read in this embedding, as the
code issues no writes) returns `none` exactly when the id has zero stored
versions, and on an id with `k` stored versions returns the version-`k`
record — the maximal version, equal to the count of stored versions. -/
theorem C6_getItem (ops : List Op) :
    (memTraceOK MemoryStorage.empty ops →
      ∀ id,
        ((runMem MemoryStorage.empty ops).getItem id = none ↔
          (runMem MemoryStorage.empty ops).getAuditTrail id = []) ∧
        (∀ it, (runMem MemoryStorage.empty ops).getItem id = some it →
          it.metadata.version = ((runMem MemoryStorage.empty ops).getAuditTrail id).length ∧
          ((runMem MemoryStorage.empty ops).getAuditTrail id).getLast? = some it)) ∧
    (ddbTraceOK [] ops →
      ∀ id,
        (DynamoDBStorage.getItem (runDdb [] ops) id = none ↔
          ∀ r ∈ runDdb [] ops, r.item.id ≠ id) ∧
        (∀ it, DynamoDBStorage.getItem (runDdb [] ops) id = some it →
          it.metadata.version =
            ((runDdb [] ops).filter (fun r => r.item.id = id)).length ∧
          ∀ r ∈ runDdb [] ops, r.item.id = id →
            r.item.metadata.version ≤ it.metadata.version)) := by
  constructor
  · intro hok id
    have inv := memInv_run ops MemoryStorage.empty memInv_empty hok
    constructor
    · unfold MemoryStorage.getItem MemoryStorage.getAuditTrail
      cases hh : mapGet (runMem MemoryStorage.empty ops).versions id with
      | none =>
        rw [(inv.keys id).mpr hh]
        simp
      | some h =>
        obtain ⟨hne, _, _, hlast⟩ := inv.history id h hh
        rw [hlast]
        simp only [Option.getD_some]
        constructor
        · intro hnone
          cases hgl : h.getLast? with
          | none =>
            exact absurd (List.getLast?_eq_none.mp hgl) hne
          | some x =>
            rw [hgl] at hnone
            cases hnone
        · intro habs
          exact absurd habs hne
    · intro it hget
      unfold MemoryStorage.getItem at hget
      have hvs : mapGet (runMem MemoryStorage.empty ops).versions id ≠ none := by
        intro hnone
        rw [(inv.keys id).mpr hnone] at hget
        cases hget
      obtain ⟨h, hh⟩ := Option.ne_none_iff_exists'.mp hvs
      obtain ⟨hne, hidx, _, hlast⟩ := inv.history id h hh
      have hlast' : h.getLast? = some it := by rw [← hlast, hget]
      unfold MemoryStorage.getAuditTrail
      rw [hh]
      simp only [Option.getD_some]
      exact ⟨memHistory_last_version h hne hidx it hlast', hlast'⟩
  · intro hok id
    have inv := ddbInv_run ops [] ddbInv_nil hok
    constructor
    · unfold DynamoDBStorage.getItem
      rw [Option.map_eq_none']
      exact queryLatestRecord_none_iff _ id
    · intro it hget
      unfold DynamoDBStorage.getItem at hget
      obtain ⟨cur, hq, hcur⟩ := Option.map_eq_some'.mp hget
      obtain ⟨hmem, hcid, hmax⟩ := queryLatestRecord_spec _ id cur hq
      have hcoh := inv.coherent cur hmem
      have hcount := ddbInv_count _ inv cur hmem
        (fun r hr hrid => hmax r hr (by rw [hrid, hcid]))
      constructor
      · rw [← hcur, ← hcoh.1]
        rw [← hcount]
        congr 1
        apply List.filter_congr
        intro r hr
        simp [hcid]
      · intro r hr hrid
        have := hmax r hr hrid
        have hcr := (inv.coherent r hr).1
        rw [← hcur]
        omega

/-- Witness for C6: the lookup semantics applied to a concrete trace. -/
theorem C6_getItem_witness :
    memTraceOK MemoryStorage.empty sampleOps ∧
    ddbTraceOK [] sampleOps ∧
    ((∀ id,
      ((runMem MemoryStorage.empty sampleOps).getItem id = none ↔
        (runMem MemoryStorage.empty sampleOps).getAuditTrail id = []) ∧
      (∀ it, (runMem MemoryStorage.empty sampleOps).getItem id = some it →
        it.metadata.version = ((runMem MemoryStorage.empty sampleOps).getAuditTrail id).length ∧
        ((runMem MemoryStorage.empty sampleOps).getAuditTrail id).getLast? = some it)) ∧
    (∀ id,
      (DynamoDBStorage.getItem (runDdb [] sampleOps) id = none ↔
        ∀ r ∈ runDdb [] sampleOps, r.item.id ≠ id) ∧
      (∀ it, DynamoDBStorage.getItem (runDdb [] sampleOps) id = some it →
        it.metadata.version =
          ((runDdb [] sampleOps).filter (fun r => r.item.id = id)).length ∧
        ∀ r ∈ runDdb [] sampleOps, r.item.id = id →
          r.item.metadata.version ≤ it.metadata.version))) :=
  ⟨by decide, by decide,
    (C6_getItem sampleOps).1 (by decide),
    (C6_getItem sampleOps).2 (by decide)⟩

theorem ddb_twoWrite_latest_counts (t : List DDBRecord) (inv : DdbInv t) (id : String)
    (cur w1 w2 : DDBRecord) (hq : queryLatestRecord t id = some cur)
    (hw1 : w1.item = cur.item) (hw1v : w1.version = cur.version)
    (hw1l : w1.latestVersion = "false")
    (hw2id : w2.item.id = cur.item.id) (hw2v : w2.version = cur.version + 1)
    (hw2l : w2.latestVersion = "true") :
    (t.filter (fun r => r.item.id = id ∧ r.latestVersion = "true")).length = 1 ∧
    ((ddbPut t w1).filter
      (fun r => r.item.id = id ∧ r.latestVersion = "true")).length = 0 ∧
    ((ddbPut (ddbPut t w1) w2).filter
      (fun r => r.item.id = id ∧ r.latestVersion = "true")).length = 1 := by
  obtain ⟨hcur, hcid, hmax⟩ := queryLatestRecord_spec t id cur hq
  have hmaxc : ∀ r ∈ t, r.item.id = cur.item.id → r.version ≤ cur.version :=
    fun r hr hrid => hmax r hr (by rw [hrid, hcid])
  have hcurflag : cur.latestVersion = "true" :=
    (inv.latest cur hcur).2.mpr (fun r' hr' hid' => hmaxc r' hr' hid')
  have hskcur : sameKey cur w1 := ⟨by rw [hw1], by rw [hw1v]⟩
  have hput1 : ddbPut t w1 = t.map (putReplace w1) := ddbPut_existing t w1 cur hcur hskcur
  have huniq : ∀ x ∈ t, sameKey x w1 → x = cur := by
    intro x hx hsk
    exact ddbInv_key_unique inv hx hcur (by rw [hsk.1, hw1]) (by rw [hsk.2, hw1v])
  have hmid_no_w2key : ∀ y ∈ t.map (putReplace w1), ¬ sameKey y w2 := by
    intro y hy hsk
    obtain ⟨x, hx, hxy⟩ := List.mem_map.mp hy
    have hvy : y.version = x.version := by rw [← hxy, putReplace_version]
    have hidy : y.item.id = x.item.id := by rw [← hxy, putReplace_item_id]
    have hxid : x.item.id = cur.item.id := by rw [← hidy, hsk.1, hw2id]
    have hle := hmaxc x hx hxid
    have hskv : y.version = w2.version := hsk.2
    omega
  have hput2 : ddbPut (t.map (putReplace w1)) w2 = t.map (putReplace w1) ++ [w2] :=
    ddbPut_fresh _ w2 hmid_no_w2key
  have hmid0 : ((t.map (putReplace w1)).filter
      (fun r => r.item.id = id ∧ r.latestVersion = "true")).length = 0 := by
    rw [List.length_eq_zero]
    rw [List.filter_eq_nil]
    intro y hy
    obtain ⟨x, hx, hxy⟩ := List.mem_map.mp hy
    simp only [decide_eq_true_eq, not_and]
    intro hyid hyflag
    by_cases hsk : sameKey x w1
    · have hxc := huniq x hx hsk
      rw [hxc, putReplace_of_same w1 cur hskcur] at hxy
      rw [← hxy] at hyflag
      rw [hw1l] at hyflag
      exact absurd hyflag (by decide)
    · rw [putReplace_of_ne w1 x hsk] at hxy
      rw [← hxy] at hyid hyflag
      have hxid : x.item.id = cur.item.id := by rw [hyid, hcid]
      have hge := (inv.latest x hx).2.mp hyflag cur hcur hxid.symm
      have hle := hmaxc x hx hxid
      exact hsk ⟨by rw [hxid, hw1], by rw [hw1v]; omega⟩
  refine ⟨?_, ?_, ?_⟩
  · apply filter_length_one t _ cur (ddbInv_nodup t inv) hcur
    · simp [hcid, hcurflag]
    · intro y hy hpy
      simp only [decide_eq_true_eq] at hpy
      obtain ⟨hyid, hyflag⟩ := hpy
      have hyid' : y.item.id = cur.item.id := by rw [hyid, hcid]
      have hge := (inv.latest y hy).2.mp hyflag cur hcur hyid'.symm
      have hle := hmaxc y hy hyid'
      exact ddbInv_key_unique inv hy hcur hyid' (by omega)
  · rw [hput1]
    exact hmid0
  · rw [hput1, hput2, List.filter_append, List.length_append, hmid0]
    have hw2p : (fun r : DDBRecord => decide (r.item.id = id ∧ r.latestVersion = "true")) w2 =
        true := by
      simp [hw2id, hcid, hw2l]
    simp only [List.filter_cons, List.filter_nil]
    rw [if_pos hw2p]
    rfl

/-- C7: the durable backend's `updateItem` and `createVersion` issue the
demote write (old latest rewritten with `latestVersion: 'false'`) before the
promote write (new record with `latestVersion: 'true'`) — structurally, their
write pair is applied in that order — so the id has exactly one latest record
before the sequence, zero in the transient state between the writes, and one
again after: at no point do two records of the id carry `latestVersion =
"true"`. -/
theorem C7_demote_then_promote (ops : List Op) (hok : ddbTraceOK [] ops) :
    ∀ id now data w1 w2,
      (DynamoDBStorage.updateWrites (runDdb [] ops) id now data = some (w1, w2) ∨
        DynamoDBStorage.snapshotWrites (runDdb [] ops) id now = some (w1, w2)) →
      w1.latestVersion = "false" ∧ w2.latestVersion = "true" ∧
      ((runDdb [] ops).filter
        (fun r => r.item.id = id ∧ r.latestVersion = "true")).length = 1 ∧
      ((ddbPut (runDdb [] ops) w1).filter
        (fun r => r.item.id = id ∧ r.latestVersion = "true")).length = 0 ∧
      ((ddbPut (ddbPut (runDdb [] ops) w1) w2).filter
        (fun r => r.item.id = id ∧ r.latestVersion = "true")).length = 1 := by
  intro id now data w1 w2 hw
  have inv := ddbInv_run ops [] ddbInv_nil hok
  rcases hw with hw | hw
  · unfold DynamoDBStorage.updateWrites at hw
    cases hq : queryLatestRecord (runDdb [] ops) id with
    | none =>
      rw [hq] at hw
      cases hw
    | some cur =>
      rw [hq] at hw
      simp only [Option.some.injEq, Prod.mk.injEq] at hw
      obtain ⟨hw1, hw2⟩ := hw
      subst hw1
      subst hw2
      have hcoh := (inv.coherent cur (queryLatestRecord_spec _ id cur hq).1).1
      have hver : (applyUpdate cur.item data now).metadata.version = cur.version + 1 := by
        rw [hcoh]
        rfl
      have hcounts := ddb_twoWrite_latest_counts (runDdb [] ops) inv id cur
        { item := cur.item, version := cur.version, latestVersion := "false",
          lastModified := cur.lastModified }
        { item := applyUpdate cur.item data now,
          version := (applyUpdate cur.item data now).metadata.version,
          latestVersion := "true",
          lastModified := (applyUpdate cur.item data now).metadata.lastModified }
        hq rfl rfl rfl rfl hver rfl
      exact ⟨rfl, rfl, hcounts⟩
  · unfold DynamoDBStorage.snapshotWrites at hw
    cases hq : queryLatestRecord (runDdb [] ops) id with
    | none =>
      rw [hq] at hw
      cases hw
    | some cur =>
      rw [hq] at hw
      simp only [Option.some.injEq, Prod.mk.injEq] at hw
      obtain ⟨hw1, hw2⟩ := hw
      subst hw1
      subst hw2
      have hcoh := (inv.coherent cur (queryLatestRecord_spec _ id cur hq).1).1
      have hver : (applySnapshot cur.item now).metadata.version = cur.version + 1 := by
        rw [hcoh]
        rfl
      have hcounts := ddb_twoWrite_latest_counts (runDdb [] ops) inv id cur
        { item := cur.item, version := cur.version, latestVersion := "false",
          lastModified := cur.lastModified }
        { item := applySnapshot cur.item now,
          version := (applySnapshot cur.item now).metadata.version,
          latestVersion := "true",
          lastModified := (applySnapshot cur.item now).metadata.lastModified }
        hq rfl rfl rfl rfl hver rfl
      exact ⟨rfl, rfl, hcounts⟩

/-- Witness for C7: the two-write counts on a concrete table and update. -/
theorem C7_demote_then_promote_witness :
    ddbTraceOK [] sampleOps ∧
    (∀ w1 w2,
      DynamoDBStorage.updateWrites (runDdb [] sampleOps) "item-a" 5 sampleUpdate =
        some (w1, w2) →
      w1.latestVersion = "false" ∧ w2.latestVersion = "true" ∧
      ((runDdb [] sampleOps).filter
        (fun r => r.item.id = "item-a" ∧ r.latestVersion = "true")).length = 1 ∧
      ((ddbPut (runDdb [] sampleOps) w1).filter
        (fun r => r.item.id = "item-a" ∧ r.latestVersion = "true")).length = 0 ∧
      ((ddbPut (ddbPut (runDdb [] sampleOps) w1) w2).filter
        (fun r => r.item.id = "item-a" ∧ r.latestVersion = "true")).length = 1) :=
  ⟨by decide, fun w1 w2 hw =>
    C7_demote_then_promote sampleOps (by decide) "item-a" 5 sampleUpdate w1 w2 (Or.inl hw)⟩

/-- C8: the continuation-token codec is reversible — decoding the base64 of
the JSON serialization of a last-evaluated key yields exactly that key (for
the UUID-like ids the code generates) — and on every reachable table a token
returned by one `listItems` page, fed back into `listItems`, resumes at the
encoded position: the two pages concatenate to an unbroken prefix of the
unpaginated traversal, with no overlap and no gap. -/
theorem C8_token_roundtrip (ops : List Op) :
    (∀ k : LastEvaluatedKey, tokenSafe k.id → tokenSafe k.latestVersion →
      decodeToken (encodeToken k) = some k) ∧
    (ddbTraceOK [] ops →
      (∀ r ∈ runDdb [] ops, tokenSafe r.item.id) →
      ∀ q1 : ListItemsQuery, jsStr q1.nextToken = none →
        jsOrNat q1.limit 10 ≤ (gsiSorted (runDdb [] ops)).length →
        ∃ tok,
          DynamoDBStorage.listItems (runDdb [] ops) q1 =
            Except.ok (((gsiSorted (runDdb [] ops)).take (jsOrNat q1.limit 10)).map
              (fun r => r.item), jsOrNat q1.limit 10, some tok) ∧
          ∀ q2 : ListItemsQuery, jsStr q2.nextToken = some tok →
            ∃ items2 c2 nt2,
              DynamoDBStorage.listItems (runDdb [] ops) q2 = Except.ok (items2, c2, nt2) ∧
              ((gsiSorted (runDdb [] ops)).take (jsOrNat q1.limit 10)).map (fun r => r.item)
                  ++ items2 =
                ((gsiSorted (runDdb [] ops)).take
                  (jsOrNat q1.limit 10 + jsOrNat q2.limit 10)).map (fun r => r.item)) :=
  ⟨fun k hid hlv => decodeToken_encodeToken k hid hlv,
    fun hok hsafe q1 h1 h2 =>
      ddb_pagination (runDdb [] ops) (ddbInv_run ops [] ddbInv_nil hok) hsafe q1 h1 h2⟩

/-- Witness for C8: the codec round trip on a concrete key and the two-page
traversal of a concrete two-item table with page size 1. -/
theorem C8_token_roundtrip_witness :
    tokenSafe sampleKey.id ∧ tokenSafe sampleKey.latestVersion ∧
    decodeToken (encodeToken sampleKey) = some sampleKey ∧
    ddbTraceOK [] sampleOps ∧
    (∀ r ∈ runDdb [] sampleOps, tokenSafe r.item.id) ∧
    jsStr pageQuery.nextToken = none ∧
    jsOrNat pageQuery.limit 10 ≤ (gsiSorted (runDdb [] sampleOps)).length ∧
    (∃ tok,
      DynamoDBStorage.listItems (runDdb [] sampleOps) pageQuery =
        Except.ok (((gsiSorted (runDdb [] sampleOps)).take (jsOrNat pageQuery.limit 10)).map
          (fun r => r.item), jsOrNat pageQuery.limit 10, some tok) ∧
      ∀ q2 : ListItemsQuery, jsStr q2.nextToken = some tok →
        ∃ items2 c2 nt2,
          DynamoDBStorage.listItems (runDdb [] sampleOps) q2 = Except.ok (items2, c2, nt2) ∧
          ((gsiSorted (runDdb [] sampleOps)).take (jsOrNat pageQuery.limit 10)).map
              (fun r => r.item) ++ items2 =
            ((gsiSorted (runDdb [] sampleOps)).take
              (jsOrNat pageQuery.limit 10 + jsOrNat q2.limit 10)).map (fun r => r.item)) :=
  ⟨by decide, by decide,
    (C8_token_roundtrip sampleOps).1 sampleKey (by decide) (by decide),
    by decide, by decide, rfl, by decide,
    (C8_token_roundtrip sampleOps).2 (by decide) (by decide) pageQuery rfl (by decide)⟩
